import Mathlib

/-!
Verification of `wilderfield`'s `PriorityMap` (include/wilderfield/priority_map.hpp)
and `UnionFind` (include/wilderfield/union_find.hpp).

The C++ containers are shallowly embedded:

* `std::list<ValType> vals_` becomes `List Int`.  The C++ code never writes
  through a list iterator (node values are immutable; nodes are only inserted
  and erased), so a `std::list` iterator held in `keys_` is faithfully
  represented by the value stored in its node; the node it denotes is the
  unique occurrence of that value in `vals_` (values in `vals_` are pairwise
  distinct in every reachable state, which is proved below).
* `std::unordered_map` becomes an association list (`List (α × β)`) with
  lookup / erase / assign / `operator[]`-materialising-modify helpers.
* `std::unordered_set` becomes a duplicate-free `List`; `*begin()` is the
  head of that list (the C++ iteration order of an `unordered_set` is
  unspecified; the spec leaves the tie-break unspecified as well).
* `ValType` (a numeric type; the repository instantiates `int`) becomes `Int`,
  and the comparator `Compare` becomes a field `comp : Int → Int → Bool`
  (`std::greater` by default, `std::less` in the min-first tests).
* Operations that throw (`Top`, `Pop`) return `Except`.
-/

namespace Wilderfield

/-- Association-list lookup: models `std::unordered_map::find` / `::at` /
`::count` on a map represented as a list of key-value pairs. -/
def lookupA {α β : Type} [DecidableEq α] : List (α × β) → α → Option β
  | [], _ => none
  | p :: l, x => if x = p.1 then some p.2 else lookupA l x

/-- Association-list erase: models `std::unordered_map::erase(key)`. -/
def eraseA {α β : Type} [DecidableEq α] : List (α × β) → α → List (α × β)
  | [], _ => []
  | p :: l, x => if x = p.1 then l else p :: eraseA l x

/-- Association-list assignment: models `map[key] = value`
(update in place if present, otherwise insert). -/
def setA {α β : Type} [DecidableEq α] : List (α × β) → α → β → List (α × β)
  | [], x, y => [(x, y)]
  | p :: l, x, y => if x = p.1 then (x, y) :: l else p :: setA l x y

/-- Models `f` applied to `map[key]` through `operator[]`: if the key is
absent the entry is first materialised with the default value `dflt`
(as C++ `operator[]` value-initialises), then mutated by `f`. -/
def modifyA {α β : Type} [DecidableEq α] (f : β → β) (dflt : β) :
    List (α × β) → α → List (α × β)
  | [], x => [(x, f dflt)]
  | p :: l, x => if x = p.1 then (x, f p.2) :: l else p :: modifyA f dflt l x

/-- Erase the first occurrence of an element: models both
`std::unordered_set::erase(key)` (sets hold no duplicates) and
`std::list::erase(it)` where `it` denotes the unique node holding
the given value. -/
def eraseFirst {α : Type} [DecidableEq α] : List α → α → List α
  | [], _ => []
  | a :: l, x => if a = x then l else a :: eraseFirst l x

/-- Models `std::unordered_set::insert`: no change if the element is present,
otherwise the element is added (at the head; the set is unordered). -/
def setInsert {α : Type} [DecidableEq α] (l : List α) (x : α) : List α :=
  if x ∈ l then l else x :: l

/-- Index of the first occurrence of `x`: the position of the `std::list`
node a stored iterator denotes (unique occurrence in every reachable state). -/
def idxOf {α : Type} [DecidableEq α] : List α → α → Nat
  | [], _ => 0
  | a :: l, x => if a = x then 0 else idxOf l x + 1

/-- The directional scan shared by `PriorityMap::Update` and
`PriorityMap::Insert`:
`std::find_if` for the first element satisfying `pred`, then either attach to
that node if it already holds `nv`, insert a new node for `nv` just before the
found position, or place `nv` at the end when the scan falls off the range.
The backward (`reverse_iterator`) scans of the C++ code are this same function
applied to the reversed prefix, since inserting at `rit.base()` inserts just
before `rit`'s element in reverse orientation. -/
def findInsert (pred : Int → Bool) (nv : Int) : List Int → List Int
  | [] => [nv]
  | v :: rest =>
    if pred v then
      if v = nv then v :: rest else nv :: v :: rest
    else v :: findInsert pred nv rest

/-- Errors surfaced by `Top` / `Pop`.  `emptyContainer` is the
`std::out_of_range` thrown on an empty map; `inconsistent` is the
`std::logic_error` thrown when a value node has no keys; `atMissing` is the
`std::out_of_range` that `unordered_map::at` itself would raise on a missing
entry (distinguished here by its source; both latter cases are unreachable in
reachable states). -/
inductive PMErr : Type where
  | emptyContainer : PMErr
  | inconsistent : PMErr
  | atMissing : PMErr
deriving DecidableEq

/-- The state of `wilderfield::PriorityMap<K, int, Compare>`:
`comp` is the comparator member `comp_`, `vals` is `vals_`,
`keys` is `keys_` (each held iterator recorded by the value in its node),
`valToKeys` is `val_to_keys_`. -/
structure PriorityMap (K : Type) where
  comp : Int → Int → Bool
  vals : List Int
  keys : List (K × Int)
  valToKeys : List (Int × List K)

/-- The default comparator `std::greater<int>`. -/
def intGt : Int → Int → Bool := fun a b => decide (a > b)

/-- The comparator `std::less<int>` used by the min-first configuration. -/
def intLt : Int → Int → Bool := fun a b => decide (a < b)

/-- A freshly constructed `PriorityMap` with the given comparator. -/
def emptyPM (K : Type) (comp : Int → Int → Bool) : PriorityMap K :=
  { comp := comp, vals := [], keys := [], valToKeys := [] }

variable {K : Type} [DecidableEq K]

/-- `PriorityMap::Size`. -/
def PriorityMap.size (m : PriorityMap K) : Nat := m.keys.length

/-- `PriorityMap::Empty`. -/
def PriorityMap.isEmptyPM (m : PriorityMap K) : Bool := m.keys.isEmpty

/-- `PriorityMap::Count`. -/
def PriorityMap.countKey (m : PriorityMap K) (k : K) : Nat :=
  if (lookupA m.keys k).isSome then 1 else 0

/-- `PriorityMap::val`: `*(keys_.at(key))`, the value in the node the key's
iterator denotes.  All call sites guarantee the key is present (`at` would
throw otherwise); the default is never reached in any verified statement. -/
def PriorityMap.val (m : PriorityMap K) (k : K) : Int :=
  (lookupA m.keys k).getD 0

/-- The directional search-and-insert of `PriorityMap::Update` on `vals_`:
if `comp_(oldVal, newVal)` holds, a forward `std::find_if` from the old node
(position `idxOf vals oldVal`) towards `end()`; otherwise a backward scan
over `reverse_iterator`s from just before the old node towards `begin()`
(the same walk applied to the reversed prefix). -/
def updateVals (comp : Int → Int → Bool) (vals : List Int)
    (oldVal newVal : Int) : List Int :=
  if comp oldVal newVal then
    vals.take (idxOf vals oldVal) ++
      findInsert
        (fun v => if comp 1 0 then decide (v ≤ newVal) else decide (v ≥ newVal))
        newVal (vals.drop (idxOf vals oldVal))
  else
    (findInsert
        (fun v => if comp 0 1 then decide (v ≤ newVal) else decide (v ≥ newVal))
        newVal ((vals.take (idxOf vals oldVal)).reverse)).reverse ++
      vals.drop (idxOf vals oldVal)

/-- `PriorityMap::Update(key, new_val)`: the relocation primitive.
All call sites guarantee `key ∈ keys_` (on an absent key the C++
`keys_[key]` would yield a singular iterator and undefined behaviour),
so the absent case is modelled as the identity. -/
def PriorityMap.Update (m : PriorityMap K) (k : K) (newVal : Int) : PriorityMap K :=
  match lookupA m.keys k with
  | none => m
  | some oldVal =>
    if oldVal = newVal then m
    else
      let keys1 := eraseA m.keys k
      let vtk1 := modifyA (fun s => eraseFirst s k) [] m.valToKeys oldVal
      let vtk2 := modifyA (fun s => setInsert s k) [] vtk1 newVal
      let vals1 := updateVals m.comp m.vals oldVal newVal
      let keys2 := setA keys1 k newVal
      if ((lookupA vtk2 oldVal).getD []).isEmpty then
        { m with vals := eraseFirst vals1 oldVal, keys := keys2,
                 valToKeys := eraseA vtk2 oldVal }
      else
        { m with vals := vals1, keys := keys2, valToKeys := vtk2 }

/-- The scan of `PriorityMap::Insert` placing a new key's value-0 node:
a forward `find_if` from `begin()` when `comp_(0,1)` holds (min-first),
otherwise a backward `find_if` over `reverse_iterator`s from `rbegin()`
(the same walk applied to the reversed list). -/
def insertZeroVals (comp : Int → Int → Bool) (vals : List Int) : List Int :=
  if comp 0 1 then
    findInsert (fun v => decide (v ≥ 0)) 0 vals
  else
    (findInsert (fun v => decide (v ≥ 0)) 0 vals.reverse).reverse

/-- `PriorityMap::Insert(key, new_val)`: place a genuinely new key at value 0
(directional scan from the appropriate end of `vals_`), then delegate to
`Update`.  A key already present skips straight to `Update`. -/
def PriorityMap.Insert (m : PriorityMap K) (k : K) (newVal : Int) : PriorityMap K :=
  let m1 :=
    if (lookupA m.keys k).isSome then m
    else
      let vtk := modifyA (fun s => setInsert s k) [] m.valToKeys 0
      { m with vals := insertZeroVals m.comp m.vals, keys := setA m.keys k 0,
               valToKeys := vtk }
  m1.Update k newVal

/-- `PriorityMap::Erase(key)`: returns the updated map together with the
number of elements removed (`keys_.erase(key)`'s return value). -/
def PriorityMap.Erase (m : PriorityMap K) (k : K) : PriorityMap K × Nat :=
  match lookupA m.keys k with
  | none => (m, 0)
  | some oldVal =>
    let vtk1 := modifyA (fun s => eraseFirst s k) [] m.valToKeys oldVal
    if ((lookupA vtk1 oldVal).getD []).isEmpty then
      ({ m with vals := eraseFirst m.vals oldVal, keys := eraseA m.keys k,
                valToKeys := eraseA vtk1 oldVal }, 1)
    else
      ({ m with keys := eraseA m.keys k, valToKeys := vtk1 }, 1)

/-- `PriorityMap::Top`. -/
def PriorityMap.Top (m : PriorityMap K) : Except PMErr (K × Int) :=
  match m.vals with
  | [] => Except.error PMErr.emptyContainer
  | v :: _ =>
    match lookupA m.valToKeys v with
    | none => Except.error PMErr.atMissing
    | some [] => Except.error PMErr.inconsistent
    | some (k :: _) => Except.ok (k, v)

/-- `PriorityMap::Pop`.  On the error paths the C++ object is abandoned
mid-flight by the throw; the model returns only the error. -/
def PriorityMap.Pop (m : PriorityMap K) : Except PMErr (PriorityMap K) :=
  match m.vals with
  | [] => Except.error PMErr.emptyContainer
  | v :: _ =>
    let vtk0 := modifyA id [] m.valToKeys v
    match (lookupA vtk0 v).getD [] with
    | [] => Except.error PMErr.inconsistent
    | k :: _ =>
      let vtk1 := modifyA (fun s => eraseFirst s k) [] vtk0 v
      let keys1 := eraseA m.keys k
      if ((lookupA vtk1 v).getD []).isEmpty then
        Except.ok { m with vals := eraseFirst m.vals v, keys := keys1,
                            valToKeys := eraseA vtk1 v }
      else
        Except.ok { m with keys := keys1, valToKeys := vtk1 }

/-- `PriorityMap::operator[]`: materialise an absent key at value 0.
The returned `Proxy` is bound to the key, so only the state effect matters. -/
def PriorityMap.index (m : PriorityMap K) (k : K) : PriorityMap K :=
  if (lookupA m.keys k).isSome then m else m.Insert k 0

/-- `++pm[key]` / `pm[key]++` (both delegate to the same
`Update(key, val(key) + 1)`). -/
def PriorityMap.incKey (m : PriorityMap K) (k : K) : PriorityMap K :=
  let m1 := m.index k
  m1.Update k (m1.val k + 1)

/-- `--pm[key]` / `pm[key]--`. -/
def PriorityMap.decKey (m : PriorityMap K) (k : K) : PriorityMap K :=
  let m1 := m.index k
  m1.Update k (m1.val k - 1)

/-- `pm[key] = v` (`Proxy::operator=` delegating to `Update`). -/
def PriorityMap.assignKey (m : PriorityMap K) (k : K) (v : Int) : PriorityMap K :=
  (m.index k).Update k v

/-- Reading `pm[key]` through the proxy's conversion `operator ValType`. -/
def PriorityMap.readKey (m : PriorityMap K) (k : K) : PriorityMap K × Int :=
  let m1 := m.index k
  (m1, m1.val k)

/-- `PriorityMap::Proxy`: the transient accessor is a container pointer plus
the bound key; the state is threaded explicitly. -/
structure Proxy (K : Type) where
  key : K

/-- Prefix `++` on a proxy: mutates the container and returns the same proxy. -/
def proxyPreInc (m : PriorityMap K) (p : Proxy K) : PriorityMap K × Proxy K :=
  (m.Update p.key (m.val p.key + 1), p)

/-- Postfix `++` on a proxy: `Proxy temp = *this; ++(*this); return temp;` —
the returned copy holds the same container pointer and key. -/
def proxyPostInc (m : PriorityMap K) (p : Proxy K) : PriorityMap K × Proxy K :=
  let temp := p
  let r := proxyPreInc m p
  (r.1, temp)

/-- Prefix `--` on a proxy. -/
def proxyPreDec (m : PriorityMap K) (p : Proxy K) : PriorityMap K × Proxy K :=
  (m.Update p.key (m.val p.key - 1), p)

/-- Postfix `--` on a proxy. -/
def proxyPostDec (m : PriorityMap K) (p : Proxy K) : PriorityMap K × Proxy K :=
  let temp := p
  let r := proxyPreDec m p
  (r.1, temp)

/-- `Proxy::operator ValType`: read the bound key's current value. -/
def proxyRead (m : PriorityMap K) (p : Proxy K) : Int :=
  m.val p.key

/-- One public operation of the container, as exercised by the test suite:
accessor creation, increment, decrement, assignment through the accessor,
`Erase`, and `Pop`. -/
inductive Op (K : Type) : Type where
  | access : K → Op K
  | inc : K → Op K
  | dec : K → Op K
  | assign : K → Int → Op K
  | eraseOp : K → Op K
  | pop : Op K

/-- Apply one public operation.  A `Pop` on an empty map throws in C++ and
leaves the state unchanged; the model keeps the state. -/
def applyOp (m : PriorityMap K) : Op K → PriorityMap K
  | Op.access k => m.index k
  | Op.inc k => m.incKey k
  | Op.dec k => m.decKey k
  | Op.assign k v => m.assignKey k v
  | Op.eraseOp k => (m.Erase k).1
  | Op.pop =>
    match m.Pop with
    | Except.ok m1 => m1
    | Except.error _ => m

/-- Run a sequence of public operations from a given state. -/
def runOps (m : PriorityMap K) (ops : List (Op K)) : PriorityMap K :=
  ops.foldl applyOp m

/-! ### Association-list and set-helper lemmas -/

section Helpers

variable {α β : Type} [DecidableEq α]

theorem lookupA_setA_self (l : List (α × β)) (x : α) (y : β) :
    lookupA (setA l x y) x = some y := by
  induction l with
  | nil => simp [setA, lookupA]
  | cons p l ih =>
    by_cases h : x = p.1 <;> simp [setA, lookupA, h, ih]

theorem lookupA_setA_ne (l : List (α × β)) {x x' : α} (y : β) (h : x' ≠ x) :
    lookupA (setA l x y) x' = lookupA l x' := by
  induction l with
  | nil => simp [setA, lookupA, h]
  | cons p l ih =>
    by_cases hx : x = p.1
    · subst hx; simp [setA, lookupA, h]
    · by_cases hx' : x' = p.1 <;> simp [setA, lookupA, hx, hx', ih]

theorem lookupA_eraseA_ne (l : List (α × β)) {x x' : α} (h : x' ≠ x) :
    lookupA (eraseA l x) x' = lookupA l x' := by
  induction l with
  | nil => simp [eraseA]
  | cons p l ih =>
    by_cases hx : x = p.1
    · subst hx; simp [eraseA, lookupA, h]
    · by_cases hx' : x' = p.1 <;> simp [eraseA, lookupA, hx, hx', ih]

theorem lookupA_isSome_iff (l : List (α × β)) (x : α) :
    (lookupA l x).isSome = true ↔ x ∈ l.map Prod.fst := by
  induction l with
  | nil => simp [lookupA]
  | cons p l ih =>
    by_cases h : x = p.1 <;> simp [lookupA, h, ih]

theorem lookupA_eraseA_self (l : List (α × β)) (x : α)
    (hnd : (l.map Prod.fst).Nodup) : lookupA (eraseA l x) x = none := by
  induction l with
  | nil => simp [eraseA, lookupA]
  | cons p l ih =>
    simp only [List.map_cons, List.nodup_cons] at hnd
    by_cases h : x = p.1
    · simp only [eraseA, if_pos h]
      cases hl : lookupA l x with
      | none => rfl
      | some b =>
        have hx : x ∈ l.map Prod.fst := (lookupA_isSome_iff l x).1 (by simp [hl])
        rw [h] at hx
        exact absurd hx hnd.1
    · simp [eraseA, lookupA, h, ih hnd.2]

theorem lookupA_modifyA_self (f : β → β) (d : β) (l : List (α × β)) (x : α) :
    lookupA (modifyA f d l x) x = some (f ((lookupA l x).getD d)) := by
  induction l with
  | nil => simp [modifyA, lookupA]
  | cons p l ih =>
    by_cases h : x = p.1 <;> simp [modifyA, lookupA, h, ih]

theorem lookupA_modifyA_ne (f : β → β) (d : β) (l : List (α × β)) {x x' : α}
    (h : x' ≠ x) : lookupA (modifyA f d l x) x' = lookupA l x' := by
  induction l with
  | nil => simp [modifyA, lookupA, h]
  | cons p l ih =>
    by_cases hx : x = p.1
    · subst hx; simp [modifyA, lookupA, h]
    · by_cases hx' : x' = p.1 <;> simp [modifyA, lookupA, hx, hx', ih]

theorem mem_fst_setA (l : List (α × β)) (x x' : α) (y : β) :
    x' ∈ (setA l x y).map Prod.fst ↔ x' ∈ l.map Prod.fst ∨ x' = x := by
  induction l with
  | nil => simp [setA] <;> tauto
  | cons p l ih =>
    by_cases h : x = p.1
    · simp [setA, if_pos h, ← h] <;> tauto
    · simp [setA, if_neg h, ih] <;> tauto

theorem nodup_fst_setA (l : List (α × β)) (x : α) (y : β)
    (hnd : (l.map Prod.fst).Nodup) : ((setA l x y).map Prod.fst).Nodup := by
  induction l with
  | nil => simp [setA]
  | cons p l ih =>
    simp only [List.map_cons, List.nodup_cons] at hnd
    by_cases h : x = p.1
    · simp only [setA, if_pos h, List.map_cons, List.nodup_cons]
      rw [h]
      exact hnd
    · simp only [setA, if_neg h, List.map_cons, List.nodup_cons]
      refine ⟨?_, ih hnd.2⟩
      rw [mem_fst_setA]
      push_neg
      exact ⟨hnd.1, fun hc => h hc.symm⟩

theorem eraseA_sublist (l : List (α × β)) (x : α) : (eraseA l x).Sublist l := by
  induction l with
  | nil => simp [eraseA]
  | cons p l ih =>
    by_cases h : x = p.1
    · simpa [eraseA, h] using List.sublist_cons_self p l
    · simpa [eraseA, h] using ih.cons₂ p

theorem nodup_fst_eraseA (l : List (α × β)) (x : α)
    (hnd : (l.map Prod.fst).Nodup) : ((eraseA l x).map Prod.fst).Nodup :=
  ((eraseA_sublist l x).map Prod.fst).nodup hnd

theorem mem_fst_modifyA (f : β → β) (d : β) (l : List (α × β)) (x x' : α) :
    x' ∈ (modifyA f d l x).map Prod.fst ↔ x' ∈ l.map Prod.fst ∨ x' = x := by
  induction l with
  | nil => simp [modifyA] <;> tauto
  | cons p l ih =>
    by_cases h : x = p.1
    · simp [modifyA, if_pos h, ← h] <;> tauto
    · simp [modifyA, if_neg h, ih] <;> tauto

theorem nodup_fst_modifyA (f : β → β) (d : β) (l : List (α × β)) (x : α)
    (hnd : (l.map Prod.fst).Nodup) : ((modifyA f d l x).map Prod.fst).Nodup := by
  induction l with
  | nil => simp [modifyA]
  | cons p l ih =>
    simp only [List.map_cons, List.nodup_cons] at hnd
    by_cases h : x = p.1
    · simp only [modifyA, if_pos h, List.map_cons, List.nodup_cons]
      rw [h]
      exact hnd
    · simp only [modifyA, if_neg h, List.map_cons, List.nodup_cons]
      refine ⟨?_, ih hnd.2⟩
      rw [mem_fst_modifyA]
      push_neg
      exact ⟨hnd.1, fun hc => h hc.symm⟩

theorem lookupA_mem {l : List (α × β)} {x : α} {b : β}
    (h : lookupA l x = some b) : (x, b) ∈ l := by
  induction l with
  | nil => simp [lookupA] at h
  | cons p l ih =>
    by_cases hx : x = p.1
    · subst hx
      simp [lookupA] at h
      subst h
      exact List.mem_cons_self _ _
    · simp [lookupA, hx] at h
      exact List.mem_cons_of_mem _ (ih h)

theorem mem_lookupA {l : List (α × β)} {x : α} {b : β}
    (hnd : (l.map Prod.fst).Nodup) (h : (x, b) ∈ l) : lookupA l x = some b := by
  induction l with
  | nil => simp at h
  | cons p l ih =>
    simp only [List.map_cons, List.nodup_cons] at hnd
    rcases List.mem_cons.1 h with h | h
    · subst h; simp [lookupA]
    · have hx : x ≠ p.1 := by
        intro hc
        apply hnd.1
        rw [← hc]
        exact List.mem_map.2 ⟨(x, b), h, rfl⟩
      simp [lookupA, hx]
      exact ih hnd.2 h

theorem length_setA_absent (l : List (α × β)) (x : α) (y : β)
    (h : lookupA l x = none) : (setA l x y).length = l.length + 1 := by
  induction l with
  | nil => simp [setA]
  | cons p l ih =>
    by_cases hx : x = p.1
    · simp [lookupA, hx] at h
    · simp [lookupA, hx] at h
      simp [setA, hx, ih h]

theorem eraseFirst_sublist (l : List α) (x : α) : (eraseFirst l x).Sublist l := by
  induction l with
  | nil => simp [eraseFirst]
  | cons a l ih =>
    by_cases h : a = x
    · simpa [eraseFirst, h] using List.sublist_cons_self a l
    · simpa [eraseFirst, h] using ih.cons₂ a

theorem mem_eraseFirst_of_ne {l : List α} {x a : α} (hm : x ∈ l) (hne : x ≠ a) :
    x ∈ eraseFirst l a := by
  induction l with
  | nil => simp at hm
  | cons b l ih =>
    by_cases hb : b = a
    · simp only [eraseFirst, if_pos hb]
      rcases List.mem_cons.1 hm with h | h
      · exact absurd (h.trans hb) hne
      · exact h
    · simp only [eraseFirst, if_neg hb]
      rcases List.mem_cons.1 hm with h | h
      · exact List.mem_cons.2 (Or.inl h)
      · exact List.mem_cons_of_mem b (ih h)

theorem not_mem_eraseFirst_self {l : List α} (hnd : l.Nodup) (a : α) :
    a ∉ eraseFirst l a := by
  induction l with
  | nil => simp [eraseFirst]
  | cons b l ih =>
    rcases List.nodup_cons.1 hnd with ⟨hb, hl⟩
    by_cases h : b = a
    · subst h; simpa [eraseFirst] using hb
    · simp only [eraseFirst, if_neg h, List.mem_cons, not_or]
      exact ⟨fun hc => h hc.symm, ih hl⟩

theorem eraseFirst_of_not_mem {l : List α} {a : α} (h : a ∉ l) :
    eraseFirst l a = l := by
  induction l with
  | nil => simp [eraseFirst]
  | cons b l ih =>
    simp only [List.mem_cons, not_or] at h
    have hb : b ≠ a := fun hc => h.1 hc.symm
    simp [eraseFirst, hb, ih h.2]

theorem mem_setInsert (l : List α) (x a : α) :
    x ∈ setInsert l a ↔ x = a ∨ x ∈ l := by
  unfold setInsert
  by_cases h : a ∈ l
  · simp [h]
    intro hx
    subst hx
    exact h
  · simp [h]

theorem nodup_setInsert (l : List α) (a : α) (hnd : l.Nodup) :
    (setInsert l a).Nodup := by
  unfold setInsert
  by_cases h : a ∈ l <;> simp [h, hnd]

theorem setInsert_of_not_mem {l : List α} {a : α} (h : a ∉ l) :
    setInsert l a = a :: l := by
  simp [setInsert, h]

theorem mem_findInsert (pred : Int → Bool) (nv : Int) (l : List Int) (x : Int) :
    x ∈ findInsert pred nv l ↔ x ∈ l ∨ x = nv := by
  induction l with
  | nil => simp [findInsert]
  | cons v rest ih =>
    by_cases hp : pred v
    · by_cases hv : v = nv
      · subst hv
        simp [findInsert, hp]
        tauto
      · simp [findInsert, hp, hv]
        tauto
    · simp [findInsert, hp, ih]
      tauto

theorem drop_idxOf {l : List α} {x : α} (h : x ∈ l) :
    ∃ suf, l.drop (idxOf l x) = x :: suf := by
  induction l with
  | nil => simp at h
  | cons a l ih =>
    by_cases ha : a = x
    · subst ha
      exact ⟨l, by simp [idxOf]⟩
    · rcases List.mem_cons.1 h with hc | hc
      · exact absurd hc.symm ha
      · rcases ih hc with ⟨suf, hsuf⟩
        exact ⟨suf, by simpa [idxOf, ha] using hsuf⟩

theorem mem_eraseFirst_iff {l : List α} (hnd : l.Nodup) (x a : α) :
    x ∈ eraseFirst l a ↔ x ∈ l ∧ x ≠ a := by
  constructor
  · intro h
    refine ⟨(eraseFirst_sublist l a).subset h, ?_⟩
    intro he
    rw [he] at h
    exact not_mem_eraseFirst_self hnd a h
  · intro h
    exact mem_eraseFirst_of_ne h.1 h.2

end Helpers

/-! ### The directional scan on a sorted segment -/

theorem pairwise_nodup_of_irrefl {r : Int → Int → Prop} (hirr : ∀ a, ¬ r a a)
    {l : List Int} (h : l.Pairwise r) : l.Nodup :=
  h.imp (fun hab he => absurd (he ▸ hab) (hirr _))

/-- Core correctness of the scans in `Update` and `Insert`: if `pre ++ l` is
strictly sorted by `r`, every element of the untouched prefix `pre` is
`r`-before `nv`, and `pred` recognises exactly the elements not `r`-before
`nv` (the `find_if` stop condition), then attaching or inserting `nv` by
scanning `l` keeps the whole list strictly sorted. -/
theorem findInsert_pairwise (r : Int → Int → Prop) (pred : Int → Bool) (nv : Int)
    (htrans : ∀ a b c, r a b → r b c → r a c)
    (htotal : ∀ a b, a ≠ b → ¬ r a b → r b a)
    (hpred : ∀ v, pred v = true ↔ ¬ r v nv) :
    ∀ (l pre : List Int), (pre ++ l).Pairwise r → (∀ a ∈ pre, r a nv) →
      (pre ++ findInsert pred nv l).Pairwise r := by
  intro l
  induction l with
  | nil =>
    intro pre hp ha
    simp only [findInsert]
    rw [List.pairwise_append]
    refine ⟨by simpa using hp, List.pairwise_singleton r nv, ?_⟩
    intro a hma b hmb
    rw [List.mem_singleton] at hmb
    rw [hmb]
    exact ha a hma
  | cons v rest ih =>
    intro pre hp ha
    by_cases hpv : pred v = true
    · by_cases hv : v = nv
      · simp only [findInsert, if_pos hpv, if_pos hv]
        exact hp
      · simp only [findInsert, if_pos hpv, if_neg hv]
        have hrv : r nv v := htotal v nv hv ((hpred v).1 hpv)
        rw [List.pairwise_append] at hp
        obtain ⟨hpre, hvr, hcross⟩ := hp
        rw [List.pairwise_cons] at hvr
        obtain ⟨hvrest, hrest⟩ := hvr
        rw [List.pairwise_append]
        refine ⟨hpre, ?_, ?_⟩
        · rw [List.pairwise_cons]
          constructor
          · intro b hb
            rcases List.mem_cons.1 hb with hb | hb
            · rw [hb]; exact hrv
            · exact htrans nv v b hrv (hvrest b hb)
          · rw [List.pairwise_cons]
            exact ⟨hvrest, hrest⟩
        · intro a hma b hmb
          rcases List.mem_cons.1 hmb with hb | hb
          · rw [hb]; exact ha a hma
          · exact hcross a hma b hb
    · simp only [findInsert, if_neg hpv]
      have hrv : r v nv := by
        by_contra hcon
        exact hpv ((hpred v).2 hcon)
      have hp' : ((pre ++ [v]) ++ rest).Pairwise r := by
        simpa [List.append_assoc] using hp
      have ha' : ∀ a ∈ pre ++ [v], r a nv := by
        intro a hma
        rcases List.mem_append.1 hma with h | h
        · exact ha a h
        · rw [List.mem_singleton] at h; rw [h]; exact hrv
      have hres := ih (pre ++ [v]) hp' ha'
      simpa [List.append_assoc] using hres

/-! ### The data-structure invariant -/

/-- The three simultaneous invariants of the priority map (spec section 3),
stated over the embedding: the value list is strictly sorted by the
comparator and duplicate-free; every live key's iterator denotes a node of
`vals_` and the key belongs to that value's bucket; every bucket is
non-empty, duplicate-free, corresponds to a live node, and contains only
keys currently holding its value; every node has a bucket entry. -/
structure Inv (m : PriorityMap K) : Prop where
  sorted : m.vals.Pairwise (fun a b => m.comp a b = true)
  valsNodup : m.vals.Nodup
  keysNodup : (m.keys.map Prod.fst).Nodup
  vtkNodup : (m.valToKeys.map Prod.fst).Nodup
  keysOk : ∀ x y, lookupA m.keys x = some y →
    y ∈ m.vals ∧ x ∈ (lookupA m.valToKeys y).getD []
  bucketsOk : ∀ v ks, lookupA m.valToKeys v = some ks →
    ks ≠ [] ∧ ks.Nodup ∧ v ∈ m.vals ∧ ∀ x ∈ ks, lookupA m.keys x = some v
  valsCovered : ∀ v ∈ m.vals, (lookupA m.valToKeys v).isSome = true

/-! ### Elementary operation-level lemmas -/

theorem lookupA_Update_self (m : PriorityMap K) (k : K) (nv : Int) {ov : Int}
    (h : lookupA m.keys k = some ov) :
    lookupA (m.Update k nv).keys k = some nv := by
  unfold PriorityMap.Update
  rw [h]
  by_cases he : ov = nv
  · simp [he, h]
  · simp only [he, if_false]
    by_cases hb : ((lookupA
        (modifyA (fun s => setInsert s k) []
          (modifyA (fun s => eraseFirst s k) [] m.valToKeys ov) nv) ov).getD []).isEmpty <;>
      simp [hb, lookupA_setA_self]

theorem lookupA_Update_ne (m : PriorityMap K) (k : K) (nv : Int) {k' : K}
    (h : k' ≠ k) :
    lookupA (m.Update k nv).keys k' = lookupA m.keys k' := by
  unfold PriorityMap.Update
  cases hl : lookupA m.keys k with
  | none => rfl
  | some ov =>
    by_cases he : ov = nv
    · simp [he]
    · simp only [he, if_false]
      by_cases hb : ((lookupA
          (modifyA (fun s => setInsert s k) []
            (modifyA (fun s => eraseFirst s k) [] m.valToKeys ov) nv) ov).getD []).isEmpty <;>
        simp [hb, lookupA_setA_ne _ _ h, lookupA_eraseA_ne _ h]

theorem Update_self_val (m : PriorityMap K) (k : K) {v : Int}
    (h : lookupA m.keys k = some v) : m.Update k v = m := by
  unfold PriorityMap.Update
  rw [h]
  simp

theorem index_of_present (m : PriorityMap K) (k : K)
    (h : (lookupA m.keys k).isSome) : m.index k = m := by
  unfold PriorityMap.index
  simp [h]

theorem keys_index_absent (m : PriorityMap K) (k : K)
    (h : lookupA m.keys k = none) : (m.index k).keys = setA m.keys k 0 := by
  unfold PriorityMap.index PriorityMap.Insert
  simp only [h, Option.isSome_none, Bool.false_eq_true, if_false]
  rw [PriorityMap.Update]
  simp [lookupA_setA_self]

theorem lookupA_index_self (m : PriorityMap K) (k : K) :
    lookupA (m.index k).keys k = some (m.val k) := by
  cases hl : lookupA m.keys k with
  | none =>
    rw [keys_index_absent m k hl, lookupA_setA_self]
    simp [PriorityMap.val, hl]
  | some v =>
    rw [index_of_present m k (by simp [hl])]
    simp [PriorityMap.val, hl]

theorem val_index (m : PriorityMap K) (k : K) : (m.index k).val k = m.val k := by
  simp [PriorityMap.val, lookupA_index_self]

/-- Claim C8 helper: concrete max-first scenario from the test suite. -/
def scenarioC8a : PriorityMap Int :=
  (((((emptyPM Int intGt).incKey 7).incKey 7).incKey 7).incKey 11).incKey 11

/-- Claim C8 helper: the same scenario after the two decrements. -/
def scenarioC8b : PriorityMap Int := (scenarioC8a.decKey 7).decKey 7

/-- C8: with the default (max-first) comparator, starting from the empty map,
applying Increment(7) three times and Increment(11) twice makes Top() return
(7, 3); then applying Decrement(7) twice makes Top() return (11, 2). -/
theorem claim_C8_concrete_scenario :
    scenarioC8a.Top = Except.ok ((7 : Int), (3 : Int)) ∧
    scenarioC8b.Top = Except.ok ((11 : Int), (2 : Int)) := by
  exact ⟨rfl, rfl⟩

/-- C5: for a state in which key `k` is absent, obtaining the accessor
(`operator[]`) creates `k` at value zero and grows `Size` by one; hence
Increment on an absent key leaves it at value 1, Decrement leaves it at
value −1, and a pure read through the accessor returns zero. -/
theorem claim_C5_absent_key_defaults (m : PriorityMap K) (k : K)
    (h : lookupA m.keys k = none) :
    (m.index k).size = m.size + 1 ∧
    (m.index k).val k = 0 ∧
    (m.incKey k).val k = 1 ∧
    (m.decKey k).val k = -1 ∧
    (m.readKey k).2 = 0 := by
  have hv : m.val k = 0 := by simp [PriorityMap.val, h]
  have hvi : (m.index k).val k = 0 := by rw [val_index, hv]
  have hsize : (m.index k).size = m.size + 1 := by
    rw [PriorityMap.size, PriorityMap.size, keys_index_absent m k h,
      length_setA_absent _ _ _ h]
  refine ⟨hsize, hvi, ?_, ?_, hvi⟩
  · show ((m.index k).Update k ((m.index k).val k + 1)).val k = 1
    rw [PriorityMap.val,
      lookupA_Update_self (m.index k) k _ (lookupA_index_self m k),
      Option.getD_some, hvi]
    decide
  · show ((m.index k).Update k ((m.index k).val k - 1)).val k = -1
    rw [PriorityMap.val,
      lookupA_Update_self (m.index k) k _ (lookupA_index_self m k),
      Option.getD_some, hvi]
    decide

/-- Witness for C5 at a concrete input: the empty max-first map and key 1. -/
theorem claim_C5_witness :
    ((emptyPM Int intGt).index 1).size = (emptyPM Int intGt).size + 1 ∧
    ((emptyPM Int intGt).index 1).val 1 = 0 ∧
    ((emptyPM Int intGt).incKey 1).val 1 = 1 ∧
    ((emptyPM Int intGt).decKey 1).val 1 = -1 ∧
    ((emptyPM Int intGt).readKey 1).2 = 0 :=
  claim_C5_absent_key_defaults (emptyPM Int intGt) 1 rfl

/-- C6: assigning to a live key the value it already holds is a complete
no-op — `Update` (and hence `Set` through the accessor) returns the state
unchanged, value list, key index and bucket membership included. -/
theorem claim_C6_assign_current_value_noop (m : PriorityMap K) (k : K)
    (v : Int) (h : lookupA m.keys k = some v) :
    m.Update k v = m ∧ m.assignKey k v = m := by
  have h1 : m.Update k v = m := Update_self_val m k h
  refine ⟨h1, ?_⟩
  show (m.index k).Update k v = m
  rw [index_of_present m k (by simp [h])]
  exact h1

/-- Witness for C6 at a concrete input: key 5 holding value 1. -/
theorem claim_C6_witness :
    ((emptyPM Int intGt).incKey 5).Update 5 1 = (emptyPM Int intGt).incKey 5 ∧
    ((emptyPM Int intGt).incKey 5).assignKey 5 1 = (emptyPM Int intGt).incKey 5 :=
  claim_C6_assign_current_value_noop ((emptyPM Int intGt).incKey 5) 5 1 rfl

/-- C9: the proxy returned by postfix increment is bound to the key, not a
saved pre-mutation value, so converting it to the value type after `pm[k]++`
yields the already-incremented value; postfix and prefix forms have the same
effect on the container state (shown for `++` and `--`). -/
theorem claim_C9_postfix_proxy_reads_new_value (m : PriorityMap K) (k : K)
    (v : Int) (h : lookupA m.keys k = some v) :
    (proxyPostInc m (Proxy.mk k)).1 = (proxyPreInc m (Proxy.mk k)).1 ∧
    proxyRead (proxyPostInc m (Proxy.mk k)).1 (proxyPostInc m (Proxy.mk k)).2
      = v + 1 ∧
    (proxyPostDec m (Proxy.mk k)).1 = (proxyPreDec m (Proxy.mk k)).1 := by
  have hv : m.val k = v := by simp [PriorityMap.val, h]
  refine ⟨rfl, ?_, rfl⟩
  show (m.Update k (m.val k + 1)).val k = v + 1
  rw [PriorityMap.val, lookupA_Update_self m k _ h, Option.getD_some, hv]

/-- Witness for C9 at a concrete input: key 5 holding value 1. -/
theorem claim_C9_witness :
    (proxyPostInc ((emptyPM Int intGt).incKey 5) (Proxy.mk 5)).1
      = (proxyPreInc ((emptyPM Int intGt).incKey 5) (Proxy.mk 5)).1 ∧
    proxyRead (proxyPostInc ((emptyPM Int intGt).incKey 5) (Proxy.mk 5)).1
      (proxyPostInc ((emptyPM Int intGt).incKey 5) (Proxy.mk 5)).2 = 1 + 1 ∧
    (proxyPostDec ((emptyPM Int intGt).incKey 5) (Proxy.mk 5)).1
      = (proxyPreDec ((emptyPM Int intGt).incKey 5) (Proxy.mk 5)).1 :=
  claim_C9_postfix_proxy_reads_new_value ((emptyPM Int intGt).incKey 5) 5 1 rfl

/-! ### Invariant preservation -/

/-- The comparator polarities the repository configures (`std::greater<int>`
by default, `std::less<int>` for the min-first uses).  The directional-scan
code probes only `comp(0,1)` / `comp(1,0)` and then compares with `<=` / `>=`,
so these are exactly the polarities the algorithm distinguishes. -/
def Polarized (comp : Int → Int → Bool) : Prop := comp = intGt ∨ comp = intLt

theorem polarized_trans {comp : Int → Int → Bool} (hc : Polarized comp) :
    ∀ a b c : Int, comp a b = true → comp b c = true → comp a c = true := by
  rcases hc with h | h <;> subst h <;> intro a b c h1 h2 <;>
    simp only [intGt, intLt, decide_eq_true_eq] at * <;> omega

theorem polarized_total {comp : Int → Int → Bool} (hc : Polarized comp) :
    ∀ a b : Int, a ≠ b → ¬ comp a b = true → comp b a = true := by
  rcases hc with h | h <;> subst h <;> intro a b h1 h2 <;>
    simp only [intGt, intLt, decide_eq_true_eq] at * <;> omega

theorem polarized_irrefl {comp : Int → Int → Bool} (hc : Polarized comp) :
    ∀ a : Int, ¬ comp a a = true := by
  rcases hc with h | h <;> subst h <;> intro a <;>
    simp only [intGt, intLt, decide_eq_true_eq] <;> omega

theorem polarized_predF {comp : Int → Int → Bool} (hc : Polarized comp)
    (nv : Int) : ∀ v : Int,
    ((if comp 1 0 then decide (v ≤ nv) else decide (v ≥ nv)) : Bool) = true ↔
      ¬ comp v nv = true := by
  rcases hc with h | h <;> subst h <;> intro v <;>
    simp only [intGt, intLt, decide_eq_true_eq] <;> norm_num <;> omega

theorem polarized_predB {comp : Int → Int → Bool} (hc : Polarized comp)
    (nv : Int) : ∀ v : Int,
    ((if comp 0 1 then decide (v ≤ nv) else decide (v ≥ nv)) : Bool) = true ↔
      ¬ comp nv v = true := by
  rcases hc with h | h <;> subst h <;> intro v <;>
    simp only [intGt, intLt, decide_eq_true_eq] <;> norm_num <;> omega

/-- The effect of `Update`'s directional search on `vals_`: the resulting
list is still strictly sorted by the comparator and its members are the old
members plus (possibly) `nv`. -/
theorem update_vals_spec (m : PriorityMap K) (hc : Polarized m.comp)
    (hInv : Inv m) {ov nv : Int} (hov : ov ∈ m.vals) (hne : ov ≠ nv)
    (vals1 : List Int)
    (hdef0 : vals1 = updateVals m.comp m.vals ov nv) :
    vals1.Pairwise (fun a b => m.comp a b = true) ∧
      (∀ x, x ∈ vals1 ↔ x ∈ m.vals ∨ x = nv) := by
  have hdef : vals1 = if m.comp ov nv then
      m.vals.take (idxOf m.vals ov) ++
        findInsert
          (fun v => if m.comp 1 0 then decide (v ≤ nv) else decide (v ≥ nv))
          nv (m.vals.drop (idxOf m.vals ov))
    else
      (findInsert
          (fun v => if m.comp 0 1 then decide (v ≤ nv) else decide (v ≥ nv))
          nv ((m.vals.take (idxOf m.vals ov)).reverse)).reverse ++
        m.vals.drop (idxOf m.vals ov) := by
    rw [hdef0, updateVals]
  obtain ⟨suf, hsuf⟩ := drop_idxOf hov
  have hsplit : m.vals = m.vals.take (idxOf m.vals ov) ++ ov :: suf := by
    conv_lhs => rw [← List.take_append_drop (idxOf m.vals ov) m.vals]
    rw [hsuf]
  have hpair : ((m.vals.take (idxOf m.vals ov)) ++ ov :: suf).Pairwise
      (fun a b => m.comp a b = true) := by
    rw [← hsplit]; exact hInv.sorted
  have hmv : ∀ x : Int,
      x ∈ m.vals ↔ x ∈ m.vals.take (idxOf m.vals ov) ∨ x = ov ∨ x ∈ suf := by
    intro x
    conv_lhs => rw [hsplit]
    rw [List.mem_append, List.mem_cons]
  have htrans := polarized_trans hc
  have htotal := polarized_total hc
  rw [List.pairwise_append] at hpair
  obtain ⟨hpre, hcons, hcross⟩ := hpair
  rw [List.pairwise_cons] at hcons
  obtain ⟨hovsuf, hsufp⟩ := hcons
  by_cases hb : m.comp ov nv = true
  · rw [if_pos hb, hsuf] at hdef
    have hanv : ∀ a ∈ m.vals.take (idxOf m.vals ov), m.comp a nv = true := by
      intro a hma
      exact htrans a ov nv (hcross a hma ov (List.mem_cons_self _ _)) hb
    have hpw := findInsert_pairwise (fun a b => m.comp a b = true)
      (fun v => if m.comp 1 0 then decide (v ≤ nv) else decide (v ≥ nv)) nv
      htrans htotal (polarized_predF hc nv) (ov :: suf)
      (m.vals.take (idxOf m.vals ov))
      (by rw [List.pairwise_append]
          exact ⟨hpre, List.pairwise_cons.2 ⟨hovsuf, hsufp⟩, hcross⟩)
      hanv
    rw [← hdef] at hpw
    refine ⟨hpw, ?_⟩
    intro x
    rw [hdef, List.mem_append, mem_findInsert, List.mem_cons, hmv x]
    tauto
  · rw [if_neg hb, hsuf] at hdef
    have hnvov : m.comp nv ov = true := htotal ov nv hne hb
    have hpw' := findInsert_pairwise (fun a b => m.comp b a = true)
      (fun v => if m.comp 0 1 then decide (v ≤ nv) else decide (v ≥ nv)) nv
      (fun a b c h1 h2 => htrans c b a h2 h1)
      (fun a b h1 h2 => htotal b a (Ne.symm h1) h2)
      (polarized_predB hc nv) ((m.vals.take (idxOf m.vals ov)).reverse) []
      (by simpa [List.pairwise_reverse] using hpre)
      (by intro a hma; simp at hma)
    simp only [List.nil_append] at hpw'
    have hA : ((findInsert
        (fun v => if m.comp 0 1 then decide (v ≤ nv) else decide (v ≥ nv)) nv
        ((m.vals.take (idxOf m.vals ov)).reverse)).reverse).Pairwise
        (fun a b => m.comp a b = true) := by
      rw [List.pairwise_reverse]
      exact hpw'
    have hAmem : ∀ x, x ∈ (findInsert
        (fun v => if m.comp 0 1 then decide (v ≤ nv) else decide (v ≥ nv)) nv
        ((m.vals.take (idxOf m.vals ov)).reverse)).reverse ↔
        x ∈ m.vals.take (idxOf m.vals ov) ∨ x = nv := by
      intro x
      rw [List.mem_reverse, mem_findInsert, List.mem_reverse]
    constructor
    · rw [hdef, List.pairwise_append]
      refine ⟨hA, List.pairwise_cons.2 ⟨hovsuf, hsufp⟩, ?_⟩
      intro a hma b hmb
      rcases (hAmem a).1 hma with h | h
      · exact hcross a h b hmb
      · rcases List.mem_cons.1 hmb with hb' | hb'
        · rw [h, hb']; exact hnvov
        · rw [h]; exact htrans nv ov b hnvov (hovsuf b hb')
    · intro x
      rw [hdef, List.mem_append, hAmem, List.mem_cons, hmv x]
      tauto

/-- Packaging lemma: `Inv` for a literally given state. -/
theorem Inv.of_parts (comp : Int → Int → Bool) (vals : List Int)
    (keys : List (K × Int)) (vtk : List (Int × List K))
    (h1 : vals.Pairwise (fun a b => comp a b = true)) (h2 : vals.Nodup)
    (h3 : (keys.map Prod.fst).Nodup) (h4 : (vtk.map Prod.fst).Nodup)
    (h5 : ∀ x y, lookupA keys x = some y →
      y ∈ vals ∧ x ∈ (lookupA vtk y).getD [])
    (h6 : ∀ v ks, lookupA vtk v = some ks →
      ks ≠ [] ∧ ks.Nodup ∧ v ∈ vals ∧ ∀ x ∈ ks, lookupA keys x = some v)
    (h7 : ∀ v ∈ vals, (lookupA vtk v).isSome = true) :
    Inv (⟨comp, vals, keys, vtk⟩ : PriorityMap K) :=
  ⟨h1, h2, h3, h4, h5, h6, h7⟩

theorem Update_preserves_Inv (m : PriorityMap K) (hc : Polarized m.comp)
    (hInv : Inv m) (k : K) (nv : Int) : Inv (m.Update k nv) := by
  cases hl : lookupA m.keys k with
  | none => simp only [PriorityMap.Update, hl]; exact hInv
  | some ov =>
    by_cases he : ov = nv
    · simp only [PriorityMap.Update, hl, if_pos he]; exact hInv
    · simp only [PriorityMap.Update, hl, if_neg he]
      set vtk1 := modifyA (fun s => eraseFirst s k) [] m.valToKeys ov with hvtk1d
      set vtk2 := modifyA (fun s => setInsert s k) [] vtk1 nv with hvtk2d
      set keys2 := setA (eraseA m.keys k) k nv with hkeys2d
      set vals1 := updateVals m.comp m.vals ov nv with hvals1d
      have hovm : ov ∈ m.vals := (hInv.keysOk k ov hl).1
      obtain ⟨S, hS⟩ := Option.isSome_iff_exists.1 (hInv.valsCovered ov hovm)
      obtain ⟨hSne, hSnd, -, hSmem⟩ := hInv.bucketsOk ov S hS
      have hkS : k ∈ S := by
        have h2 := (hInv.keysOk k ov hl).2
        rw [hS] at h2
        exact h2
      obtain ⟨hp1, hmem1⟩ := update_vals_spec m hc hInv hovm he vals1 hvals1d
      have hnodup1 : vals1.Nodup :=
        pairwise_nodup_of_irrefl (polarized_irrefl hc) hp1
      have hvtk1ov : lookupA vtk1 ov = some (eraseFirst S k) := by
        rw [hvtk1d, lookupA_modifyA_self, hS]
        rfl
      have hvtk1ne : ∀ x : Int, x ≠ ov →
          lookupA vtk1 x = lookupA m.valToKeys x := by
        intro x hx
        rw [hvtk1d]
        exact lookupA_modifyA_ne _ _ _ hx
      have hvtk2ov : lookupA vtk2 ov = some (eraseFirst S k) := by
        rw [hvtk2d, lookupA_modifyA_ne _ _ _ he, hvtk1ov]
      set T := (lookupA m.valToKeys nv).getD [] with hTd
      have hkT : k ∉ T := by
        intro hkmem
        cases hTl : lookupA m.valToKeys nv with
        | none => rw [hTd, hTl] at hkmem; simp at hkmem
        | some T0 =>
          rw [hTd, hTl] at hkmem
          simp at hkmem
          have hthis := (hInv.bucketsOk nv T0 hTl).2.2.2 k hkmem
          rw [hl] at hthis
          exact he (Option.some.inj hthis)
      have hTnodup : T.Nodup := by
        cases hTl : lookupA m.valToKeys nv with
        | none => rw [hTd, hTl]; simp
        | some T0 =>
          rw [hTd, hTl]
          simpa using (hInv.bucketsOk nv T0 hTl).2.1
      have hTmem : ∀ x ∈ T, lookupA m.keys x = some nv := by
        intro x hx
        cases hTl : lookupA m.valToKeys nv with
        | none => rw [hTd, hTl] at hx; simp at hx
        | some T0 =>
          rw [hTd, hTl] at hx
          simp at hx
          exact (hInv.bucketsOk nv T0 hTl).2.2.2 x hx
      have hvtk2nv : lookupA vtk2 nv = some (k :: T) := by
        rw [hvtk2d, lookupA_modifyA_self, hvtk1ne nv (Ne.symm he), ← hTd,
          setInsert_of_not_mem hkT]
      have hvtk2ne : ∀ x : Int, x ≠ ov → x ≠ nv →
          lookupA vtk2 x = lookupA m.valToKeys x := by
        intro x hx1 hx2
        rw [hvtk2d, lookupA_modifyA_ne _ _ _ hx2, hvtk1ne x hx1]
      have hk2self : lookupA keys2 k = some nv := by
        rw [hkeys2d]
        exact lookupA_setA_self _ _ _
      have hk2ne : ∀ x : K, x ≠ k → lookupA keys2 x = lookupA m.keys x := by
        intro x hx
        rw [hkeys2d, lookupA_setA_ne _ _ hx, lookupA_eraseA_ne _ hx]
      have hk2nodup : (keys2.map Prod.fst).Nodup := by
        rw [hkeys2d]
        exact nodup_fst_setA _ _ _ (nodup_fst_eraseA _ _ hInv.keysNodup)
      have hvtk2nodup : (vtk2.map Prod.fst).Nodup := by
        rw [hvtk2d, hvtk1d]
        exact nodup_fst_modifyA _ _ _ _ (nodup_fst_modifyA _ _ _ _ hInv.vtkNodup)
      by_cases hE : ((lookupA vtk2 ov).getD []).isEmpty = true
      · rw [if_pos hE]
        have hEe : eraseFirst S k = [] := by
          rw [hvtk2ov] at hE
          simpa using hE
        refine Inv.of_parts _ _ _ _ ?_ ?_ ?_ ?_ ?_ ?_ ?_
        · exact List.Pairwise.sublist (eraseFirst_sublist _ _) hp1
        · exact (eraseFirst_sublist _ _).nodup hnodup1
        · exact hk2nodup
        · exact nodup_fst_eraseA _ _ hvtk2nodup
        · intro x y hxy
          by_cases hxk : x = k
          · subst hxk
            rw [hk2self] at hxy
            have hy : nv = y := Option.some.inj hxy
            subst hy
            constructor
            · rw [mem_eraseFirst_iff hnodup1]
              exact ⟨(hmem1 nv).2 (Or.inr rfl), Ne.symm he⟩
            · rw [lookupA_eraseA_ne _ (Ne.symm he), hvtk2nv]
              simp
          · rw [hk2ne x hxk] at hxy
            obtain ⟨hyv, hxb⟩ := hInv.keysOk x y hxy
            have hyo : y ≠ ov := by
              intro hyeq
              subst hyeq
              rw [hS] at hxb
              simp only [Option.getD_some] at hxb
              have hxmem : x ∈ eraseFirst S k := mem_eraseFirst_of_ne hxb hxk
              rw [hEe] at hxmem
              simp at hxmem
            constructor
            · rw [mem_eraseFirst_iff hnodup1]
              exact ⟨(hmem1 y).2 (Or.inl hyv), hyo⟩
            · rw [lookupA_eraseA_ne _ hyo]
              by_cases hynv : y = nv
              · have hynv' : nv = y := hynv.symm
                subst hynv'
                rw [hvtk2nv]
                simp only [Option.getD_some, List.mem_cons]
                right
                rw [hTd]
                exact hxb
              · rw [hvtk2ne y hyo hynv]
                exact hxb
        · intro v ks hks
          have hvo : v ≠ ov := by
            intro hveq
            rw [hveq, lookupA_eraseA_self _ _ hvtk2nodup] at hks
            exact Option.noConfusion hks
          rw [lookupA_eraseA_ne _ hvo] at hks
          by_cases hvnv : v = nv
          · have hvnv' : nv = v := hvnv.symm
            subst hvnv'
            rw [hvtk2nv] at hks
            have hks' : ks = k :: T := (Option.some.inj hks).symm
            subst hks'
            refine ⟨by simp, List.nodup_cons.2 ⟨hkT, hTnodup⟩, ?_, ?_⟩
            · rw [mem_eraseFirst_iff hnodup1]
              exact ⟨(hmem1 nv).2 (Or.inr rfl), Ne.symm he⟩
            · intro x hx
              rcases List.mem_cons.1 hx with hx | hx
              · rw [hx]
                exact hk2self
              · have hxk : x ≠ k := fun hceq => hkT (hceq ▸ hx)
                rw [hk2ne x hxk]
                exact hTmem x hx
          · rw [hvtk2ne v hvo hvnv] at hks
            obtain ⟨hne', hnd', hv', hmem'⟩ := hInv.bucketsOk v ks hks
            refine ⟨hne', hnd', ?_, ?_⟩
            · rw [mem_eraseFirst_iff hnodup1]
              exact ⟨(hmem1 v).2 (Or.inl hv'), hvo⟩
            · intro x hx
              have hxv := hmem' x hx
              have hxk : x ≠ k := by
                intro hceq
                rw [hceq, hl] at hxv
                exact hvo ((Option.some.inj hxv).symm)
              rw [hk2ne x hxk]
              exact hxv
        · intro v hv
          rw [mem_eraseFirst_iff hnodup1] at hv
          obtain ⟨hv1, hvo⟩ := hv
          rw [lookupA_eraseA_ne _ hvo]
          by_cases hvnv : v = nv
          · have hvnv' : nv = v := hvnv.symm
            subst hvnv'
            rw [hvtk2nv]
            rfl
          · rcases (hmem1 v).1 hv1 with hvm | hvnv2
            · rw [hvtk2ne v hvo hvnv]
              exact hInv.valsCovered v hvm
            · exact absurd hvnv2 hvnv
      · rw [if_neg hE]
        have hEne : eraseFirst S k ≠ [] := by
          intro hceq
          rw [hvtk2ov] at hE
          simp [hceq] at hE
        refine Inv.of_parts _ _ _ _ hp1 hnodup1 hk2nodup hvtk2nodup ?_ ?_ ?_
        · intro x y hxy
          by_cases hxk : x = k
          · subst hxk
            rw [hk2self] at hxy
            have hy : nv = y := Option.some.inj hxy
            subst hy
            refine ⟨(hmem1 nv).2 (Or.inr rfl), ?_⟩
            rw [hvtk2nv]
            simp
          · rw [hk2ne x hxk] at hxy
            obtain ⟨hyv, hxb⟩ := hInv.keysOk x y hxy
            refine ⟨(hmem1 y).2 (Or.inl hyv), ?_⟩
            by_cases hyo : y = ov
            · have hyo' : ov = y := hyo.symm
              subst hyo'
              rw [hvtk2ov]
              simp only [Option.getD_some]
              rw [hS] at hxb
              simp only [Option.getD_some] at hxb
              exact mem_eraseFirst_of_ne hxb hxk
            · by_cases hynv : y = nv
              · have hynv' : nv = y := hynv.symm
                subst hynv'
                rw [hvtk2nv]
                simp only [Option.getD_some, List.mem_cons]
                right
                rw [hTd]
                exact hxb
              · rw [hvtk2ne y hyo hynv]
                exact hxb
        · intro v ks hks
          by_cases hvo : v = ov
          · have hvo' : ov = v := hvo.symm
            subst hvo'
            rw [hvtk2ov] at hks
            have hks' : ks = eraseFirst S k := (Option.some.inj hks).symm
            subst hks'
            refine ⟨hEne, (eraseFirst_sublist _ _).nodup hSnd,
              (hmem1 ov).2 (Or.inl hovm), ?_⟩
            intro x hx
            rw [mem_eraseFirst_iff hSnd] at hx
            rw [hk2ne x hx.2]
            exact hSmem x hx.1
          · by_cases hvnv : v = nv
            · have hvnv' : nv = v := hvnv.symm
              subst hvnv'
              rw [hvtk2nv] at hks
              have hks' : ks = k :: T := (Option.some.inj hks).symm
              subst hks'
              refine ⟨by simp, List.nodup_cons.2 ⟨hkT, hTnodup⟩,
                (hmem1 nv).2 (Or.inr rfl), ?_⟩
              intro x hx
              rcases List.mem_cons.1 hx with hx | hx
              · rw [hx]
                exact hk2self
              · have hxk : x ≠ k := fun hceq => hkT (hceq ▸ hx)
                rw [hk2ne x hxk]
                exact hTmem x hx
            · rw [hvtk2ne v hvo hvnv] at hks
              obtain ⟨hne', hnd', hv', hmem'⟩ := hInv.bucketsOk v ks hks
              refine ⟨hne', hnd', (hmem1 v).2 (Or.inl hv'), ?_⟩
              intro x hx
              have hxv := hmem' x hx
              have hxk : x ≠ k := by
                intro hceq
                rw [hceq, hl] at hxv
                exact hvo ((Option.some.inj hxv).symm)
              rw [hk2ne x hxk]
              exact hxv
        · intro v hv
          by_cases hvo : v = ov
          · have hvo' : ov = v := hvo.symm
            subst hvo'
            rw [hvtk2ov]
            rfl
          · by_cases hvnv : v = nv
            · have hvnv' : nv = v := hvnv.symm
              subst hvnv'
              rw [hvtk2nv]
              rfl
            · rw [hvtk2ne v hvo hvnv]
              rcases (hmem1 v).1 hv with hvm | hvnv2
              · exact hInv.valsCovered v hvm
              · exact absurd hvnv2 hvnv

/-- The effect of `Insert`'s zero-placement scan on `vals_`. -/
theorem insertZeroVals_spec (comp : Int → Int → Bool) (hc : Polarized comp)
    (vals : List Int) (hp : vals.Pairwise (fun a b => comp a b = true)) :
    (insertZeroVals comp vals).Pairwise (fun a b => comp a b = true) ∧
      ∀ x, x ∈ insertZeroVals comp vals ↔ x ∈ vals ∨ x = 0 := by
  have htrans := polarized_trans hc
  have htotal := polarized_total hc
  unfold insertZeroVals
  by_cases hb : comp 0 1 = true
  · rw [if_pos hb]
    have hpred : ∀ v : Int, (decide (v ≥ 0) : Bool) = true ↔ ¬ comp v 0 = true := by
      rcases hc with h | h <;> subst h <;> intro v <;>
        simp only [intGt, intLt, decide_eq_true_eq] at hb ⊢ <;> omega
    have hres := findInsert_pairwise (fun a b => comp a b = true)
      (fun v => decide (v ≥ 0)) 0 htrans htotal hpred vals []
      (by simpa using hp) (by intro a ha; simp at ha)
    refine ⟨by simpa using hres, ?_⟩
    intro x
    rw [mem_findInsert]
  · rw [if_neg hb]
    have hpred : ∀ v : Int, (decide (v ≥ 0) : Bool) = true ↔ ¬ comp 0 v = true := by
      rcases hc with h | h <;> subst h <;> intro v <;>
        simp only [intGt, intLt, decide_eq_true_eq] at hb ⊢ <;> omega
    have hres := findInsert_pairwise (fun a b => comp b a = true)
      (fun v => decide (v ≥ 0)) 0
      (fun a b c h1 h2 => htrans c b a h2 h1)
      (fun a b h1 h2 => htotal b a (Ne.symm h1) h2)
      hpred vals.reverse []
      (by simpa [List.pairwise_reverse] using hp)
      (by intro a ha; simp at ha)
    constructor
    · rw [List.pairwise_reverse]
      simpa using hres
    · intro x
      rw [List.mem_reverse, mem_findInsert, List.mem_reverse]

theorem Insert_preserves_Inv (m : PriorityMap K) (hc : Polarized m.comp)
    (hInv : Inv m) (k : K) (nv : Int) : Inv (m.Insert k nv) := by
  unfold PriorityMap.Insert
  by_cases hl : (lookupA m.keys k).isSome = true
  · rw [if_pos hl]
    exact Update_preserves_Inv m hc hInv k nv
  · rw [if_neg hl]
    show Inv (PriorityMap.Update
      (⟨m.comp, insertZeroVals m.comp m.vals, setA m.keys k 0,
        modifyA (fun s => setInsert s k) [] m.valToKeys 0⟩ : PriorityMap K) k nv)
    refine Update_preserves_Inv _ ?_ ?_ k nv
    · exact hc
    have hlnone : lookupA m.keys k = none := by
      cases h : lookupA m.keys k with
      | none => rfl
      | some v => rw [h] at hl; simp at hl
    obtain ⟨hp1, hmem1⟩ := insertZeroVals_spec m.comp hc m.vals hInv.sorted
    set T0 := (lookupA m.valToKeys 0).getD [] with hT0d
    have hkT0 : k ∉ T0 := by
      intro hkm
      cases hTl : lookupA m.valToKeys 0 with
      | none => rw [hT0d, hTl] at hkm; simp at hkm
      | some T' =>
        rw [hT0d, hTl] at hkm
        simp at hkm
        have hthis := (hInv.bucketsOk 0 T' hTl).2.2.2 k hkm
        rw [hlnone] at hthis
        exact Option.noConfusion hthis
    have hT0nodup : T0.Nodup := by
      cases hTl : lookupA m.valToKeys 0 with
      | none => rw [hT0d, hTl]; simp
      | some T' =>
        rw [hT0d, hTl]
        simpa using (hInv.bucketsOk 0 T' hTl).2.1
    have hT0mem : ∀ x ∈ T0, lookupA m.keys x = some 0 := by
      intro x hx
      cases hTl : lookupA m.valToKeys 0 with
      | none => rw [hT0d, hTl] at hx; simp at hx
      | some T' =>
        rw [hT0d, hTl] at hx
        simp at hx
        exact (hInv.bucketsOk 0 T' hTl).2.2.2 x hx
    have hvtkI0 : lookupA (modifyA (fun s => setInsert s k) [] m.valToKeys 0) 0
        = some (k :: T0) := by
      rw [lookupA_modifyA_self, ← hT0d, setInsert_of_not_mem hkT0]
    have hvtkIne : ∀ x : Int, x ≠ 0 →
        lookupA (modifyA (fun s => setInsert s k) [] m.valToKeys 0) x
          = lookupA m.valToKeys x := by
      intro x hx
      exact lookupA_modifyA_ne _ _ _ hx
    refine Inv.of_parts _ _ _ _ hp1
      (pairwise_nodup_of_irrefl (polarized_irrefl hc) hp1)
      (nodup_fst_setA _ _ _ hInv.keysNodup)
      (nodup_fst_modifyA _ _ _ _ hInv.vtkNodup) ?_ ?_ ?_
    · intro x y hxy
      by_cases hxk : x = k
      · subst hxk
        rw [lookupA_setA_self] at hxy
        have hy : (0 : Int) = y := Option.some.inj hxy
        subst hy
        refine ⟨(hmem1 0).2 (Or.inr rfl), ?_⟩
        rw [hvtkI0]
        simp
      · rw [lookupA_setA_ne _ _ hxk] at hxy
        obtain ⟨hyv, hxb⟩ := hInv.keysOk x y hxy
        refine ⟨(hmem1 y).2 (Or.inl hyv), ?_⟩
        by_cases hy0 : y = 0
        · subst hy0
          rw [hvtkI0]
          simp only [Option.getD_some, List.mem_cons]
          right
          rw [hT0d]
          exact hxb
        · rw [hvtkIne y hy0]
          exact hxb
    · intro v ks hks
      by_cases hv0 : v = 0
      · subst hv0
        rw [hvtkI0] at hks
        have hks' : ks = k :: T0 := (Option.some.inj hks).symm
        subst hks'
        refine ⟨by simp, List.nodup_cons.2 ⟨hkT0, hT0nodup⟩,
          (hmem1 0).2 (Or.inr rfl), ?_⟩
        intro x hx
        rcases List.mem_cons.1 hx with hx | hx
        · rw [hx]
          exact lookupA_setA_self _ _ _
        · have hxk : x ≠ k := fun hceq => hkT0 (hceq ▸ hx)
          rw [lookupA_setA_ne _ _ hxk]
          exact hT0mem x hx
      · rw [hvtkIne v hv0] at hks
        obtain ⟨hne', hnd', hv', hmem'⟩ := hInv.bucketsOk v ks hks
        refine ⟨hne', hnd', (hmem1 v).2 (Or.inl hv'), ?_⟩
        intro x hx
        have hxv := hmem' x hx
        have hxk : x ≠ k := by
          intro hceq
          rw [hceq, hlnone] at hxv
          exact Option.noConfusion hxv
        rw [lookupA_setA_ne _ _ hxk]
        exact hxv
    · intro v hv
      by_cases hv0 : v = 0
      · subst hv0
        rw [hvtkI0]
        rfl
      · rw [hvtkIne v hv0]
        rcases (hmem1 v).1 hv with hvm | hv0'
        · exact hInv.valsCovered v hvm
        · exact absurd hv0' hv0

/-- Shared core of `Erase` and `Pop`: removing live key `k` from bucket `ov`,
with the membership index already updated to `vtk1`. -/
theorem erase_core_preserves_Inv (m : PriorityMap K) (hInv : Inv m)
    (k : K) (ov : Int) (hl : lookupA m.keys k = some ov)
    (S : List K) (hS : lookupA m.valToKeys ov = some S)
    (vtk1 : List (Int × List K))
    (hv1ov : lookupA vtk1 ov = some (eraseFirst S k))
    (hv1ne : ∀ x : Int, x ≠ ov → lookupA vtk1 x = lookupA m.valToKeys x)
    (hv1nd : (vtk1.map Prod.fst).Nodup) :
    Inv (if ((lookupA vtk1 ov).getD []).isEmpty = true then
        (⟨m.comp, eraseFirst m.vals ov, eraseA m.keys k, eraseA vtk1 ov⟩ :
          PriorityMap K)
      else ⟨m.comp, m.vals, eraseA m.keys k, vtk1⟩) := by
  obtain ⟨hSne, hSnd, hovm, hSmem⟩ := hInv.bucketsOk ov S hS
  have hkne : ∀ x : K, x ≠ k →
      lookupA (eraseA m.keys k) x = lookupA m.keys x := by
    intro x hx
    exact lookupA_eraseA_ne _ hx
  have hkself : lookupA (eraseA m.keys k) k = none :=
    lookupA_eraseA_self _ _ hInv.keysNodup
  have hknodup : ((eraseA m.keys k).map Prod.fst).Nodup :=
    nodup_fst_eraseA _ _ hInv.keysNodup
  by_cases hE : ((lookupA vtk1 ov).getD []).isEmpty = true
  · rw [if_pos hE]
    have hEe : eraseFirst S k = [] := by
      rw [hv1ov] at hE
      simpa using hE
    refine Inv.of_parts _ _ _ _
      (List.Pairwise.sublist (eraseFirst_sublist _ _) hInv.sorted)
      ((eraseFirst_sublist _ _).nodup hInv.valsNodup)
      hknodup (nodup_fst_eraseA _ _ hv1nd) ?_ ?_ ?_
    · intro x y hxy
      have hxk : x ≠ k := by
        intro hceq
        rw [hceq, hkself] at hxy
        exact Option.noConfusion hxy
      rw [hkne x hxk] at hxy
      obtain ⟨hyv, hxb⟩ := hInv.keysOk x y hxy
      have hyo : y ≠ ov := by
        intro hyeq
        rw [hyeq, hS] at hxb
        simp only [Option.getD_some] at hxb
        have hxmem : x ∈ eraseFirst S k := mem_eraseFirst_of_ne hxb hxk
        rw [hEe] at hxmem
        simp at hxmem
      constructor
      · rw [mem_eraseFirst_iff hInv.valsNodup]
        exact ⟨hyv, hyo⟩
      · rw [lookupA_eraseA_ne _ hyo, hv1ne y hyo]
        exact hxb
    · intro v ks hks
      have hvo : v ≠ ov := by
        intro hveq
        rw [hveq, lookupA_eraseA_self _ _ hv1nd] at hks
        exact Option.noConfusion hks
      rw [lookupA_eraseA_ne _ hvo, hv1ne v hvo] at hks
      obtain ⟨hne', hnd', hv', hmem'⟩ := hInv.bucketsOk v ks hks
      refine ⟨hne', hnd', ?_, ?_⟩
      · rw [mem_eraseFirst_iff hInv.valsNodup]
        exact ⟨hv', hvo⟩
      · intro x hx
        have hxv := hmem' x hx
        have hxk : x ≠ k := by
          intro hceq
          rw [hceq, hl] at hxv
          exact hvo ((Option.some.inj hxv).symm)
        rw [hkne x hxk]
        exact hxv
    · intro v hv
      rw [mem_eraseFirst_iff hInv.valsNodup] at hv
      obtain ⟨hv1, hvo⟩ := hv
      rw [lookupA_eraseA_ne _ hvo, hv1ne v hvo]
      exact hInv.valsCovered v hv1
  · rw [if_neg hE]
    have hEne : eraseFirst S k ≠ [] := by
      intro hceq
      rw [hv1ov] at hE
      simp [hceq] at hE
    refine Inv.of_parts _ _ _ _ hInv.sorted hInv.valsNodup hknodup hv1nd
      ?_ ?_ ?_
    · intro x y hxy
      have hxk : x ≠ k := by
        intro hceq
        rw [hceq, hkself] at hxy
        exact Option.noConfusion hxy
      rw [hkne x hxk] at hxy
      obtain ⟨hyv, hxb⟩ := hInv.keysOk x y hxy
      refine ⟨hyv, ?_⟩
      by_cases hyo : y = ov
      · have hyo' : ov = y := hyo.symm
        subst hyo'
        rw [hv1ov]
        simp only [Option.getD_some]
        rw [hS] at hxb
        simp only [Option.getD_some] at hxb
        exact mem_eraseFirst_of_ne hxb hxk
      · rw [hv1ne y hyo]
        exact hxb
    · intro v ks hks
      by_cases hvo : v = ov
      · have hvo' : ov = v := hvo.symm
        subst hvo'
        rw [hv1ov] at hks
        have hks' : ks = eraseFirst S k := (Option.some.inj hks).symm
        subst hks'
        refine ⟨hEne, (eraseFirst_sublist _ _).nodup hSnd, hovm, ?_⟩
        intro x hx
        rw [mem_eraseFirst_iff hSnd] at hx
        rw [hkne x hx.2]
        exact hSmem x hx.1
      · rw [hv1ne v hvo] at hks
        obtain ⟨hne', hnd', hv', hmem'⟩ := hInv.bucketsOk v ks hks
        refine ⟨hne', hnd', hv', ?_⟩
        intro x hx
        have hxv := hmem' x hx
        have hxk : x ≠ k := by
          intro hceq
          rw [hceq, hl] at hxv
          exact hvo ((Option.some.inj hxv).symm)
        rw [hkne x hxk]
        exact hxv
    · intro v hv
      by_cases hvo : v = ov
      · have hvo' : ov = v := hvo.symm
        subst hvo'
        rw [hv1ov]
        rfl
      · rw [hv1ne v hvo]
        exact hInv.valsCovered v hv

theorem Erase_preserves_Inv (m : PriorityMap K) (hInv : Inv m) (k : K) :
    Inv (m.Erase k).1 := by
  cases hl : lookupA m.keys k with
  | none => simp only [PriorityMap.Erase, hl]; exact hInv
  | some ov =>
    simp only [PriorityMap.Erase, hl]
    have hovm : ov ∈ m.vals := (hInv.keysOk k ov hl).1
    obtain ⟨S, hS⟩ := Option.isSome_iff_exists.1 (hInv.valsCovered ov hovm)
    have hv1ov : lookupA (modifyA (fun s => eraseFirst s k) [] m.valToKeys ov) ov
        = some (eraseFirst S k) := by
      rw [lookupA_modifyA_self, hS]
      rfl
    have hcore := erase_core_preserves_Inv m hInv k ov hl S hS
      (modifyA (fun s => eraseFirst s k) [] m.valToKeys ov) hv1ov
      (fun x hx => lookupA_modifyA_ne _ _ _ hx)
      (nodup_fst_modifyA _ _ _ _ hInv.vtkNodup)
    rw [apply_ite Prod.fst]
    exact hcore

theorem Pop_ok_preserves_Inv (m : PriorityMap K) (hInv : Inv m)
    {m' : PriorityMap K} (h : m.Pop = Except.ok m') : Inv m' := by
  cases hv : m.vals with
  | nil =>
    simp only [PriorityMap.Pop, hv] at h
    exact Except.noConfusion h
  | cons v rest =>
    have hvm : v ∈ m.vals := by rw [hv]; exact List.mem_cons_self _ _
    obtain ⟨S, hS⟩ := Option.isSome_iff_exists.1 (hInv.valsCovered v hvm)
    obtain ⟨hSne, hSnd, -, hSmem⟩ := hInv.bucketsOk v S hS
    simp only [PriorityMap.Pop, hv] at h
    have hscrut : (lookupA (modifyA id [] m.valToKeys v) v).getD [] = S := by
      rw [lookupA_modifyA_self, hS]
      rfl
    rw [hscrut] at h
    cases hSc : S with
    | nil => exact absurd hSc hSne
    | cons k ktail =>
      rw [hSc] at h
      simp only at h
      rw [← apply_ite Except.ok] at h
      have hm' := (Except.ok.inj h).symm
      have hlk : lookupA m.keys k = some v := by
        apply hSmem
        rw [hSc]
        exact List.mem_cons_self _ _
      have hv0self : lookupA (modifyA id [] m.valToKeys v) v = some S := by
        rw [lookupA_modifyA_self, hS]
        rfl
      have hv0ne : ∀ x : Int, x ≠ v →
          lookupA (modifyA id [] m.valToKeys v) x = lookupA m.valToKeys x :=
        fun x hx => lookupA_modifyA_ne _ _ _ hx
      have hv1ov : lookupA (modifyA (fun s => eraseFirst s k) []
          (modifyA id [] m.valToKeys v) v) v = some (eraseFirst S k) := by
        rw [lookupA_modifyA_self, hv0self]
        rfl
      have hcore := erase_core_preserves_Inv m hInv k v hlk S hS
        (modifyA (fun s => eraseFirst s k) [] (modifyA id [] m.valToKeys v) v)
        hv1ov
        (fun x hx => by rw [lookupA_modifyA_ne _ _ _ hx, hv0ne x hx])
        (nodup_fst_modifyA _ _ _ _ (nodup_fst_modifyA _ _ _ _ hInv.vtkNodup))
      rw [hm', ← hv]
      exact hcore

/-! ### Sequences of public operations -/

theorem comp_Update (m : PriorityMap K) (k : K) (nv : Int) :
    (m.Update k nv).comp = m.comp := by
  unfold PriorityMap.Update
  cases lookupA m.keys k with
  | none => rfl
  | some ov =>
    dsimp only
    split
    · rfl
    · split <;> rfl

theorem comp_Insert (m : PriorityMap K) (k : K) (nv : Int) :
    (m.Insert k nv).comp = m.comp := by
  unfold PriorityMap.Insert
  rw [comp_Update]
  split <;> rfl

theorem comp_index (m : PriorityMap K) (k : K) :
    (m.index k).comp = m.comp := by
  unfold PriorityMap.index
  split
  · rfl
  · exact comp_Insert m k 0

theorem comp_Erase (m : PriorityMap K) (k : K) :
    (m.Erase k).1.comp = m.comp := by
  unfold PriorityMap.Erase
  cases lookupA m.keys k with
  | none => rfl
  | some ov =>
    dsimp only
    split <;> rfl

theorem comp_Pop_ok (m : PriorityMap K) {m' : PriorityMap K}
    (h : m.Pop = Except.ok m') : m'.comp = m.comp := by
  unfold PriorityMap.Pop at h
  cases hv : m.vals with
  | nil => rw [hv] at h; exact Except.noConfusion h
  | cons v rest =>
    rw [hv] at h
    dsimp only at h
    cases hsc : (lookupA (modifyA id [] m.valToKeys v) v).getD [] with
    | nil => rw [hsc] at h; exact Except.noConfusion h
    | cons k ktail =>
      rw [hsc] at h
      dsimp only at h
      split at h
      · rw [← Except.ok.inj h]
      · rw [← Except.ok.inj h]

theorem applyOp_comp (m : PriorityMap K) (op : Op K) :
    (applyOp m op).comp = m.comp := by
  cases op with
  | access k => exact comp_index m k
  | inc k =>
    show ((m.index k).Update k ((m.index k).val k + 1)).comp = m.comp
    rw [comp_Update, comp_index]
  | dec k =>
    show ((m.index k).Update k ((m.index k).val k - 1)).comp = m.comp
    rw [comp_Update, comp_index]
  | assign k v =>
    show ((m.index k).Update k v).comp = m.comp
    rw [comp_Update, comp_index]
  | eraseOp k => exact comp_Erase m k
  | pop =>
    show (match m.Pop with
      | Except.ok m1 => m1
      | Except.error _ => m).comp = m.comp
    cases hp : m.Pop with
    | ok m1 => exact comp_Pop_ok m hp
    | error e => rfl

theorem applyOp_preserves_Inv (m : PriorityMap K) (hc : Polarized m.comp)
    (hInv : Inv m) (op : Op K) : Inv (applyOp m op) := by
  cases op with
  | access k =>
    show Inv (m.index k)
    unfold PriorityMap.index
    split
    · exact hInv
    · exact Insert_preserves_Inv m hc hInv k 0
  | inc k =>
    show Inv ((m.index k).Update k ((m.index k).val k + 1))
    refine Update_preserves_Inv _ ?_ ?_ _ _
    · rw [comp_index]; exact hc
    · show Inv (m.index k)
      unfold PriorityMap.index
      split
      · exact hInv
      · exact Insert_preserves_Inv m hc hInv k 0
  | dec k =>
    show Inv ((m.index k).Update k ((m.index k).val k - 1))
    refine Update_preserves_Inv _ ?_ ?_ _ _
    · rw [comp_index]; exact hc
    · show Inv (m.index k)
      unfold PriorityMap.index
      split
      · exact hInv
      · exact Insert_preserves_Inv m hc hInv k 0
  | assign k v =>
    show Inv ((m.index k).Update k v)
    refine Update_preserves_Inv _ ?_ ?_ _ _
    · rw [comp_index]; exact hc
    · show Inv (m.index k)
      unfold PriorityMap.index
      split
      · exact hInv
      · exact Insert_preserves_Inv m hc hInv k 0
  | eraseOp k => exact Erase_preserves_Inv m hInv k
  | pop =>
    show Inv (match m.Pop with
      | Except.ok m1 => m1
      | Except.error _ => m)
    cases hp : m.Pop with
    | ok m1 => exact Pop_ok_preserves_Inv m hInv hp
    | error e => exact hInv

theorem Inv_empty (comp : Int → Int → Bool) : Inv (emptyPM K comp) := by
  refine ⟨?_, ?_, ?_, ?_, ?_, ?_, ?_⟩ <;>
    simp [emptyPM, lookupA]

theorem runOps_preserves_Inv (m : PriorityMap K) (hc : Polarized m.comp)
    (hInv : Inv m) (ops : List (Op K)) : Inv (runOps m ops) := by
  induction ops generalizing m with
  | nil => exact hInv
  | cons op ops ih =>
    show Inv (runOps (applyOp m op) ops)
    refine ih (applyOp m op) ?_ (applyOp_preserves_Inv m hc hInv op)
    rw [applyOp_comp]
    exact hc

/-- The states reachable from a freshly constructed map with the given
comparator by a finite sequence of public operations. -/
def Reachable (comp : Int → Int → Bool) (m : PriorityMap K) : Prop :=
  ∃ ops : List (Op K), runOps (emptyPM K comp) ops = m

theorem Reachable_Inv {comp : Int → Int → Bool} (hc : Polarized comp)
    {m : PriorityMap K} (hm : Reachable comp m) : Inv m := by
  obtain ⟨ops, hops⟩ := hm
  rw [← hops]
  exact runOps_preserves_Inv (emptyPM K comp) hc (Inv_empty comp) ops

theorem Reachable_comp {comp : Int → Int → Bool} {m : PriorityMap K}
    (hm : Reachable comp m) : m.comp = comp := by
  obtain ⟨ops, hops⟩ := hm
  rw [← hops]
  have hrun : ∀ (ops : List (Op K)) (m0 : PriorityMap K),
      (runOps m0 ops).comp = m0.comp := by
    intro ops
    induction ops with
    | nil => intro m0; rfl
    | cons op ops ih =>
      intro m0
      show (runOps (applyOp m0 op) ops).comp = m0.comp
      rw [ih (applyOp m0 op), applyOp_comp]
  rw [hrun ops (emptyPM K comp)]
  rfl

/-- C1: starting from the empty map with either configured comparator, after
every finite sequence of public operations (accessor creation, increment,
decrement, assignment, Erase, Pop) the data-structure invariant holds:
`vals_` lists each value at most once in comparator order, every live key's
iterator denotes the node holding its value and the key sits in that value's
bucket, every bucket is a non-empty set of keys currently holding its value,
and every node has a bucket (hence the key-set of `keys_` is the union of
all buckets). -/
theorem claim_C1_invariant_preservation (comp : Int → Int → Bool)
    (hc : Polarized comp) (ops : List (Op K)) :
    Inv (runOps (emptyPM K comp) ops) :=
  runOps_preserves_Inv (emptyPM K comp) hc (Inv_empty comp) ops

/-- Witness for C1 at a concrete input: the default comparator and the
operation sequence of the C8 scenario. -/
theorem claim_C1_witness :
    Inv (runOps (emptyPM Int intGt)
      [Op.inc 7, Op.inc 7, Op.inc 7, Op.inc 11, Op.inc 11, Op.pop]) :=
  claim_C1_invariant_preservation intGt (Or.inl rfl)
    [Op.inc 7, Op.inc 7, Op.inc 7, Op.inc 11, Op.inc 11, Op.pop]

/-! ### Top, Pop and Erase claims -/

theorem lookupA_head {α β : Type} [DecidableEq α] (p : α × β) (l : List (α × β)) :
    lookupA (p :: l) p.1 = some p.2 := by
  simp [lookupA]

/-- On an `Inv` state with at least one live key, `vals_` is non-empty. -/
theorem vals_ne_nil_of_keys (m : PriorityMap K) (hInv : Inv m)
    (hne : m.keys ≠ []) : m.vals ≠ [] := by
  cases hk : m.keys with
  | nil => exact absurd hk hne
  | cons p l =>
    have hp : lookupA m.keys p.1 = some p.2 := by rw [hk]; exact lookupA_head p l
    have hv := (hInv.keysOk p.1 p.2 hp).1
    intro hctr
    rw [hctr] at hv
    exact List.not_mem_nil _ hv

/-- On an `Inv` state with no live keys, `vals_` is empty. -/
theorem vals_nil_of_no_keys (m : PriorityMap K) (hInv : Inv m)
    (hk : m.keys = []) : m.vals = [] := by
  cases hv : m.vals with
  | nil => rfl
  | cons v rest =>
    have hvm : v ∈ m.vals := by rw [hv]; exact List.mem_cons_self _ _
    obtain ⟨S, hS⟩ := Option.isSome_iff_exists.1 (hInv.valsCovered v hvm)
    obtain ⟨hSne, -, -, hSmem⟩ := hInv.bucketsOk v S hS
    cases hSc : S with
    | nil => exact absurd hSc hSne
    | cons k0 tl =>
      have hk0 := hSmem k0 (by rw [hSc]; exact List.mem_cons_self _ _)
      rw [hk] at hk0
      exact Option.noConfusion hk0

/-- On an `Inv` state whose `vals_` starts with `v`, `Top` succeeds and
returns `v` together with the head of `v`'s bucket. -/
theorem Top_of_head (m : PriorityMap K) (hInv : Inv m) {v : Int}
    {rest : List Int} (hv : m.vals = v :: rest) :
    ∃ k0 S, lookupA m.valToKeys v = some (k0 :: S) ∧
      m.Top = Except.ok (k0, v) := by
  have hvm : v ∈ m.vals := by rw [hv]; exact List.mem_cons_self _ _
  obtain ⟨S, hS⟩ := Option.isSome_iff_exists.1 (hInv.valsCovered v hvm)
  obtain ⟨hSne, -, -, -⟩ := hInv.bucketsOk v S hS
  cases hSc : S with
  | nil => exact absurd hSc hSne
  | cons k0 tl =>
    rw [hSc] at hS
    refine ⟨k0, tl, hS, ?_⟩
    simp only [PriorityMap.Top, hv, hS]

/-- C2: on every reachable non-empty state (either configured comparator),
`Top` returns a pair `(k, v)` where `k` is a live key currently holding `v`
and `v` is extreme: no live key's value is `Before` it. -/
theorem claim_C2_top_correctness {comp : Int → Int → Bool}
    (hc : Polarized comp) (m : PriorityMap K) (hm : Reachable comp m)
    (hne : m.keys ≠ []) :
    ∃ k v, m.Top = Except.ok (k, v) ∧ lookupA m.keys k = some v ∧
      ∀ k' v', lookupA m.keys k' = some v' → ¬ m.comp v' v = true := by
  have hInv := Reachable_Inv hc hm
  have hcm : Polarized m.comp := by rw [Reachable_comp hm]; exact hc
  cases hv : m.vals with
  | nil => exact absurd hv (vals_ne_nil_of_keys m hInv hne)
  | cons v rest =>
    obtain ⟨k0, S, hS, hTop⟩ := Top_of_head m hInv hv
    have hk0 := (hInv.bucketsOk v (k0 :: S) hS).2.2.2 k0 (List.mem_cons_self _ _)
    refine ⟨k0, v, hTop, hk0, ?_⟩
    intro k' v' hk'
    have hv'm := (hInv.keysOk k' v' hk').1
    rw [hv] at hv'm
    rcases List.mem_cons.1 hv'm with hv' | hv'
    · rw [hv']
      exact polarized_irrefl hcm v
    · have hsorted := hInv.sorted
      rw [hv] at hsorted
      have hvv' : m.comp v v' = true :=
        (List.pairwise_cons.1 hsorted).1 v' hv'
      intro hctr
      exact polarized_irrefl hcm v
        (polarized_trans hcm v v' v hvv' hctr)

/-- Witness for C2 at a concrete input: the reachable max-first state with the
single key 7 at value 1. -/
theorem claim_C2_witness :
    ∃ k v, (runOps (emptyPM Int intGt) [Op.inc 7]).Top = Except.ok (k, v) ∧
      lookupA (runOps (emptyPM Int intGt) [Op.inc 7]).keys k = some v ∧
      ∀ k' v', lookupA (runOps (emptyPM Int intGt) [Op.inc 7]).keys k' = some v' →
        ¬ (runOps (emptyPM Int intGt) [Op.inc 7]).comp v' v = true :=
  claim_C2_top_correctness (Or.inl rfl) (runOps (emptyPM Int intGt) [Op.inc 7])
    ⟨[Op.inc 7], rfl⟩ (by decide)

/-- C3: `Top` and `Pop` fail — with the `EmptyContainer` error, an exception
signalled to the caller rather than a silently returned default — exactly
when the map has no live keys; on a non-empty map both succeed. -/
theorem claim_C3_top_pop_empty_container (m : PriorityMap K) (hInv : Inv m) :
    (m.keys = [] → m.Top = Except.error PMErr.emptyContainer ∧
      m.Pop = Except.error PMErr.emptyContainer) ∧
    (m.keys ≠ [] → (∃ kv, m.Top = Except.ok kv) ∧
      ∃ m', m.Pop = Except.ok m') := by
  constructor
  · intro hk
    have hv := vals_nil_of_no_keys m hInv hk
    constructor
    · rw [PriorityMap.Top, hv]
    · rw [PriorityMap.Pop, hv]
  · intro hne
    have hvne := vals_ne_nil_of_keys m hInv hne
    cases hv : m.vals with
    | nil => exact absurd hv hvne
    | cons v rest =>
      obtain ⟨k0, S, hS, hTop⟩ := Top_of_head m hInv hv
      refine ⟨⟨(k0, v), hTop⟩, ?_⟩
      have hscrut : (lookupA (modifyA id [] m.valToKeys v) v).getD []
          = k0 :: S := by
        rw [lookupA_modifyA_self, hS]
        rfl
      rw [PriorityMap.Pop, hv]
      simp only [hscrut]
      split
      · exact ⟨_, rfl⟩
      · exact ⟨_, rfl⟩

/-- Witness for C3 at a concrete input: the single-key state reached by one
increment of key 7. -/
theorem claim_C3_witness :
    ((runOps (emptyPM Int intGt) [Op.inc 7]).keys = [] →
      (runOps (emptyPM Int intGt) [Op.inc 7]).Top
        = Except.error PMErr.emptyContainer ∧
      (runOps (emptyPM Int intGt) [Op.inc 7]).Pop
        = Except.error PMErr.emptyContainer) ∧
    ((runOps (emptyPM Int intGt) [Op.inc 7]).keys ≠ [] →
      (∃ kv, (runOps (emptyPM Int intGt) [Op.inc 7]).Top = Except.ok kv) ∧
      ∃ m', (runOps (emptyPM Int intGt) [Op.inc 7]).Pop = Except.ok m') :=
  claim_C3_top_pop_empty_container (runOps (emptyPM Int intGt) [Op.inc 7])
    (runOps_preserves_Inv (emptyPM Int intGt) (Or.inl rfl) (Inv_empty intGt)
      [Op.inc 7])

/-- C4: `Erase` on an absent key returns 0 and leaves the entire state
unchanged; on a live key it returns 1, removes the key from the key index and
from its bucket's key-set, and deletes the bucket node from the value list
iff that key-set became empty; hence erasing a live key twice returns 1 then
0 (the second call again a complete no-op). -/
theorem claim_C4_idempotent_erase (m : PriorityMap K) (k : K) :
    (lookupA m.keys k = none → m.Erase k = (m, 0)) ∧
    (Inv m → ∀ v, lookupA m.keys k = some v →
      (m.Erase k).2 = 1 ∧
      lookupA (m.Erase k).1.keys k = none ∧
      (∀ S, lookupA m.valToKeys v = some S →
        k ∉ (lookupA (m.Erase k).1.valToKeys v).getD [] ∧
        (v ∈ (m.Erase k).1.vals ↔ eraseFirst S k ≠ [])) ∧
      (m.Erase k).1.Erase k = ((m.Erase k).1, 0)) := by
  constructor
  · intro hl
    simp only [PriorityMap.Erase, hl]
  · intro hInv v hl
    have hovm : v ∈ m.vals := (hInv.keysOk k v hl).1
    have hkself : lookupA (m.Erase k).1.keys k = none := by
      simp only [PriorityMap.Erase, hl]
      rw [apply_ite Prod.fst]
      split <;> exact lookupA_eraseA_self _ _ hInv.keysNodup
    refine ⟨?_, hkself, ?_, ?_⟩
    · simp only [PriorityMap.Erase, hl]
      rw [apply_ite Prod.snd]
      split <;> rfl
    · intro S hS
      obtain ⟨-, hSnd, -, -⟩ := hInv.bucketsOk v S hS
      have hv1 : lookupA (modifyA (fun s => eraseFirst s k) [] m.valToKeys v) v
          = some (eraseFirst S k) := by
        rw [lookupA_modifyA_self, hS]
        rfl
      simp only [PriorityMap.Erase, hl]
      rw [apply_ite Prod.fst]
      by_cases hE : ((lookupA (modifyA (fun s => eraseFirst s k) []
          m.valToKeys v) v).getD []).isEmpty = true
      · have hEe : eraseFirst S k = [] := by
          rw [hv1] at hE
          simpa using hE
        rw [if_pos hE]
        constructor
        · have hnone : lookupA (eraseA (modifyA (fun s => eraseFirst s k) []
              m.valToKeys v) v) v = none :=
            lookupA_eraseA_self _ _ (nodup_fst_modifyA _ _ _ _ hInv.vtkNodup)
          rw [hnone]
          simp
        · constructor
          · intro hmem
            exact absurd hmem (not_mem_eraseFirst_self hInv.valsNodup v)
          · intro hne2
            exact absurd hEe hne2
      · have hEne : eraseFirst S k ≠ [] := by
          intro hceq
          rw [hv1] at hE
          simp [hceq] at hE
        rw [if_neg hE]
        constructor
        · rw [hv1]
          simp only [Option.getD_some]
          exact not_mem_eraseFirst_self hSnd k
        · exact ⟨fun _ => hEne, fun _ => hovm⟩
    · have hres : ∀ p : PriorityMap K × Nat,
          lookupA p.1.keys k = none → p.1.Erase k = (p.1, 0) := by
        intro p hp
        simp only [PriorityMap.Erase, hp]
      exact hres (m.Erase k) hkself

/-! ### The increment/decrement round trip -/

theorem Update_keys_eq (m : PriorityMap K) (k : K) (nv : Int) {ov : Int}
    (hl : lookupA m.keys k = some ov) (hne : ov ≠ nv) :
    (m.Update k nv).keys = setA (eraseA m.keys k) k nv := by
  simp only [PriorityMap.Update, hl, if_neg hne]
  split <;> rfl

/-- Two lists strictly sorted by the same total order and with the same
members are equal. -/
theorem sorted_eq_of_mem_iff {r : Int → Int → Prop}
    (htrans : ∀ a b c, r a b → r b c → r a c)
    (htotal : ∀ a b, a ≠ b → ¬ r a b → r b a)
    (hirr : ∀ a, ¬ r a a) :
    ∀ l1 l2 : List Int, l1.Pairwise r → l2.Pairwise r →
      (∀ x, x ∈ l1 ↔ x ∈ l2) → l1 = l2 := by
  intro l1
  induction l1 with
  | nil =>
    intro l2 _ _ hiff
    cases l2 with
    | nil => rfl
    | cons b t2 =>
      have hmem := (hiff b).2 (List.mem_cons_self _ _)
      simp at hmem
  | cons a t1 ih =>
    intro l2 hp1 hp2 hiff
    cases l2 with
    | nil =>
      have hmem := (hiff a).1 (List.mem_cons_self _ _)
      simp at hmem
    | cons b t2 =>
      rw [List.pairwise_cons] at hp1 hp2
      have hanot1 : a ∉ t1 := fun hmem => hirr a (hp1.1 a hmem)
      have hbnot2 : b ∉ t2 := fun hmem => hirr b (hp2.1 b hmem)
      have hab : a = b := by
        by_contra hne
        have ha2 : a ∈ b :: t2 := (hiff a).1 (List.mem_cons_self _ _)
        have hb1 : b ∈ a :: t1 := (hiff b).2 (List.mem_cons_self _ _)
        rcases List.mem_cons.1 ha2 with h | h
        · exact hne h
        · rcases List.mem_cons.1 hb1 with h' | h'
          · exact hne h'.symm
          · exact hirr a (htrans a b a (hp1.1 b h') (hp2.1 a h))
      subst hab
      have htails : ∀ x, x ∈ t1 ↔ x ∈ t2 := by
        intro x
        constructor
        · intro hx
          have hxa : x ≠ a := fun hceq => hanot1 (hceq ▸ hx)
          have hx2 := (hiff x).1 (List.mem_cons_of_mem a hx)
          rcases List.mem_cons.1 hx2 with h | h
          · exact absurd h hxa
          · exact h
        · intro hx
          have hxa : x ≠ a := fun hceq => hbnot2 (hceq ▸ hx)
          have hx1 := (hiff x).2 (List.mem_cons_of_mem a hx)
          rcases List.mem_cons.1 hx1 with h | h
          · exact absurd h hxa
          · exact h
      rw [ih t2 hp1.2 hp2.2 htails]

/-- After `Update(k, nv)` then `Update(k, ov)` from a state where `k` holds
`ov`, the key index is pointwise restored and `vals_` is exactly restored. -/
theorem Update_round_trip (m : PriorityMap K) (hc : Polarized m.comp)
    (hInv : Inv m) (k : K) (ov nv : Int) (hl : lookupA m.keys k = some ov) :
    (∀ x, lookupA ((m.Update k nv).Update k ov).keys x = lookupA m.keys x) ∧
    ((m.Update k nv).Update k ov).vals = m.vals := by
  by_cases he : ov = nv
  · have h1 : m.Update k nv = m := by
      rw [← he]
      exact Update_self_val m k hl
    rw [h1, Update_self_val m k hl]
    exact ⟨fun x => rfl, rfl⟩
  · have hm1keys : (m.Update k nv).keys = setA (eraseA m.keys k) k nv :=
      Update_keys_eq m k nv hl he
    have hl1 : lookupA (m.Update k nv).keys k = some nv :=
      lookupA_Update_self m k nv hl
    have hInv1 : Inv (m.Update k nv) := Update_preserves_Inv m hc hInv k nv
    have hc1 : Polarized (m.Update k nv).comp := by
      rw [comp_Update]
      exact hc
    have hInv2 : Inv ((m.Update k nv).Update k ov) :=
      Update_preserves_Inv _ hc1 hInv1 k ov
    have hm2keys : ((m.Update k nv).Update k ov).keys
        = setA (eraseA (m.Update k nv).keys k) k ov :=
      Update_keys_eq _ k ov hl1 (fun h => he h.symm)
    have hkeys : ∀ x, lookupA ((m.Update k nv).Update k ov).keys x
        = lookupA m.keys x := by
      intro x
      by_cases hx : x = k
      · rw [hx, hm2keys, lookupA_setA_self, hl]
      · rw [hm2keys, lookupA_setA_ne _ _ hx, lookupA_eraseA_ne _ hx, hm1keys,
          lookupA_setA_ne _ _ hx, lookupA_eraseA_ne _ hx]
    refine ⟨hkeys, ?_⟩
    have hmemv : ∀ w, w ∈ ((m.Update k nv).Update k ov).vals ↔ w ∈ m.vals := by
      intro w
      constructor
      · intro hw
        obtain ⟨S2, hS2⟩ := Option.isSome_iff_exists.1 (hInv2.valsCovered w hw)
        obtain ⟨hS2ne, -, -, hS2mem⟩ := hInv2.bucketsOk w S2 hS2
        cases hS2c : S2 with
        | nil => exact absurd hS2c hS2ne
        | cons x xs =>
          have hx := hS2mem x (by rw [hS2c]; exact List.mem_cons_self _ _)
          rw [hkeys x] at hx
          exact (hInv.keysOk x w hx).1
      · intro hw
        obtain ⟨S0, hS0⟩ := Option.isSome_iff_exists.1 (hInv.valsCovered w hw)
        obtain ⟨hS0ne, -, -, hS0mem⟩ := hInv.bucketsOk w S0 hS0
        cases hS0c : S0 with
        | nil => exact absurd hS0c hS0ne
        | cons x xs =>
          have hx := hS0mem x (by rw [hS0c]; exact List.mem_cons_self _ _)
          rw [← hkeys x] at hx
          exact (hInv2.keysOk x w hx).1
    have hcomp2 : ((m.Update k nv).Update k ov).comp = m.comp := by
      rw [comp_Update, comp_Update]
    have hp2 := hInv2.sorted
    rw [hcomp2] at hp2
    exact sorted_eq_of_mem_iff (polarized_trans hc) (polarized_total hc)
      (polarized_irrefl hc) _ _ hp2 hInv.sorted hmemv

theorem incKey_of_live (m : PriorityMap K) {k : K} {v : Int}
    (hl : lookupA m.keys k = some v) : m.incKey k = m.Update k (v + 1) := by
  unfold PriorityMap.incKey
  rw [index_of_present m k (by simp [hl])]
  have hv : m.val k = v := by simp [PriorityMap.val, hl]
  show m.Update k (m.val k + 1) = m.Update k (v + 1)
  rw [hv]

theorem decKey_of_live (m : PriorityMap K) {k : K} {v : Int}
    (hl : lookupA m.keys k = some v) : m.decKey k = m.Update k (v - 1) := by
  unfold PriorityMap.decKey
  rw [index_of_present m k (by simp [hl])]
  have hv : m.val k = v := by simp [PriorityMap.val, hl]
  show m.Update k (m.val k - 1) = m.Update k (v - 1)
  rw [hv]

/-- C7: on every reachable state, incrementing a live key and then
decrementing it restores the prior state exactly: the key index is pointwise
unchanged (so the key holds its prior value), the sequence of distinct
values in `vals_` is unchanged, every bucket has the same key-set, and the
result has no empty and no duplicate buckets. -/
theorem claim_C7_increment_decrement_round_trip {comp : Int → Int → Bool}
    (hc : Polarized comp) (m : PriorityMap K) (hm : Reachable comp m)
    (k : K) (v : Int) (hl : lookupA m.keys k = some v) :
    (∀ x, lookupA ((m.incKey k).decKey k).keys x = lookupA m.keys x) ∧
    ((m.incKey k).decKey k).vals = m.vals ∧
    (∀ w x, x ∈ (lookupA ((m.incKey k).decKey k).valToKeys w).getD [] ↔
      x ∈ (lookupA m.valToKeys w).getD []) ∧
    (∀ w ks, lookupA ((m.incKey k).decKey k).valToKeys w = some ks →
      ks ≠ []) ∧
    (((m.incKey k).decKey k).valToKeys.map Prod.fst).Nodup ∧
    ((m.incKey k).decKey k).vals.Nodup := by
  have hInv := Reachable_Inv hc hm
  have hcm : Polarized m.comp := by rw [Reachable_comp hm]; exact hc
  have hstep : (m.incKey k).decKey k = (m.Update k (v + 1)).Update k v := by
    rw [incKey_of_live m hl]
    have hl1 : lookupA (m.Update k (v + 1)).keys k = some (v + 1) :=
      lookupA_Update_self m k (v + 1) hl
    rw [decKey_of_live _ hl1]
    have harith : v + 1 - 1 = v := by omega
    rw [harith]
  obtain ⟨hkeys, hvals⟩ := Update_round_trip m hcm hInv k v (v + 1) hl
  rw [hstep]
  have hInv1 : Inv (m.Update k (v + 1)) := Update_preserves_Inv m hcm hInv k (v + 1)
  have hc1 : Polarized (m.Update k (v + 1)).comp := by
    rw [comp_Update]
    exact hcm
  have hInv2 : Inv ((m.Update k (v + 1)).Update k v) :=
    Update_preserves_Inv _ hc1 hInv1 k v
  refine ⟨hkeys, hvals, ?_, ?_, hInv2.vtkNodup, hInv2.valsNodup⟩
  · intro w x
    constructor
    · intro hx
      cases hlw : lookupA ((m.Update k (v + 1)).Update k v).valToKeys w with
      | none => rw [hlw] at hx; simp at hx
      | some ks =>
        rw [hlw] at hx
        simp only [Option.getD_some] at hx
        have hxw := (hInv2.bucketsOk w ks hlw).2.2.2 x hx
        rw [hkeys x] at hxw
        exact (hInv.keysOk x w hxw).2
    · intro hx
      cases hlw : lookupA m.valToKeys w with
      | none => rw [hlw] at hx; simp at hx
      | some ks =>
        rw [hlw] at hx
        simp only [Option.getD_some] at hx
        have hxw := (hInv.bucketsOk w ks hlw).2.2.2 x hx
        rw [← hkeys x] at hxw
        exact (hInv2.keysOk x w hxw).2
  · intro w ks hks
    exact (hInv2.bucketsOk w ks hks).1

/-- Witness for C7 at a concrete input: key 7 at value 1 in a reachable
max-first state. -/
theorem claim_C7_witness :
    (∀ x, lookupA (((runOps (emptyPM Int intGt) [Op.inc 7]).incKey 7).decKey 7).keys x
        = lookupA (runOps (emptyPM Int intGt) [Op.inc 7]).keys x) ∧
    (((runOps (emptyPM Int intGt) [Op.inc 7]).incKey 7).decKey 7).vals
      = (runOps (emptyPM Int intGt) [Op.inc 7]).vals ∧
    (∀ w x, x ∈ (lookupA (((runOps (emptyPM Int intGt) [Op.inc 7]).incKey
        7).decKey 7).valToKeys w).getD [] ↔
      x ∈ (lookupA (runOps (emptyPM Int intGt) [Op.inc 7]).valToKeys w).getD []) ∧
    (∀ w ks, lookupA (((runOps (emptyPM Int intGt) [Op.inc 7]).incKey
        7).decKey 7).valToKeys w = some ks → ks ≠ []) ∧
    ((((runOps (emptyPM Int intGt) [Op.inc 7]).incKey 7).decKey
        7).valToKeys.map Prod.fst).Nodup ∧
    (((runOps (emptyPM Int intGt) [Op.inc 7]).incKey 7).decKey 7).vals.Nodup :=
  claim_C7_increment_decrement_round_trip (Or.inl rfl)
    (runOps (emptyPM Int intGt) [Op.inc 7]) ⟨[Op.inc 7], rfl⟩ 7 1 rfl

/-! ## The bundled UnionFind (include/wilderfield/union_find.hpp) -/

/-- The state of `wilderfield::UnionFind<T>`: `parent_of_`, `rank_of_`,
`max_rank_`, `num_cc_`, the two hash maps as association lists. -/
structure UnionFind (T : Type) where
  parentOf : List (T × T)
  rankOf : List (T × Nat)
  maxRank : Nat
  numCC : Nat

/-- A default-constructed `UnionFind`. -/
def emptyUF (T : Type) : UnionFind T :=
  { parentOf := [], rankOf := [], maxRank := 0, numCC := 0 }

/-- `UnionFind::InsertNode`. -/
def UnionFind.InsertNode {T : Type} [DecidableEq T] (uf : UnionFind T)
    (u : T) : UnionFind T :=
  if (lookupA uf.parentOf u).isSome then uf
  else
    { uf with parentOf := setA uf.parentOf u u, rankOf := setA uf.rankOf u 1,
              numCC := uf.numCC + 1 }

/-- The `while` loop of `UnionFind::Find` with grandparent path compression
(`parent_of_[u] = parent_of_[parent_of_[u]]; u = parent_of_[u];`), driven by
explicit fuel.  The C++ loop runs until the root is reached; under the forest
invariant the root is reached in fewer than `parent_of_.size()` steps, so
`Find` supplies fuel `parent_of_.length + 1`, proved sufficient below.  The
absent-key lookups (where C++ `operator[]` would value-initialise) are
unreachable at every verified call site and modelled as stopping. -/
def findAux {T : Type} [DecidableEq T] :
    Nat → List (T × T) → T → List (T × T) × T
  | 0, pf, u => (pf, u)
  | fuel + 1, pf, u =>
    match lookupA pf u with
    | none => (pf, u)
    | some p =>
      if p = u then (pf, u)
      else findAux fuel (setA pf u ((lookupA pf p).getD p))
        ((lookupA pf p).getD p)

/-- `UnionFind::Find`: the mutated structure and the representative. -/
def UnionFind.Find {T : Type} [DecidableEq T] (uf : UnionFind T) (u : T) :
    UnionFind T × T :=
  let r := findAux (uf.parentOf.length + 1) uf.parentOf u
  ({ uf with parentOf := r.1 }, r.2)

/-- `UnionFind::GetNumComponents`. -/
def UnionFind.GetNumComponents {T : Type} (uf : UnionFind T) : Nat := uf.numCC

/-- `UnionFind::GetMaxRank`. -/
def UnionFind.GetMaxRank {T : Type} (uf : UnionFind T) : Nat := uf.maxRank

/-- `UnionFind::Union`: both nodes must exist; find both representatives
(`Find(u)` first, `Find(v)` on the compressed state), then union by rank. -/
def UnionFind.Union {T : Type} [DecidableEq T] (uf : UnionFind T) (u v : T) :
    UnionFind T :=
  if (lookupA uf.parentOf u).isSome && (lookupA uf.parentOf v).isSome then
    let fu := uf.Find u
    let uf1 := fu.1
    let reprOfU := fu.2
    let fv := uf1.Find v
    let uf2 := fv.1
    let reprOfV := fv.2
    if reprOfU ≠ reprOfV then
      let rankU := (lookupA uf2.rankOf reprOfU).getD 0
      let rankV := (lookupA uf2.rankOf reprOfV).getD 0
      if rankU ≥ rankV then
        { uf2 with parentOf := setA uf2.parentOf reprOfV reprOfU,
                   rankOf := setA uf2.rankOf reprOfU (rankU + rankV),
                   maxRank := max uf2.maxRank (rankU + rankV),
                   numCC := uf2.numCC - 1 }
      else
        { uf2 with parentOf := setA uf2.parentOf reprOfU reprOfV,
                   rankOf := setA uf2.rankOf reprOfV (rankV + rankU),
                   maxRank := max uf2.maxRank (rankV + rankU),
                   numCC := uf2.numCC - 1 }
    else uf2
  else uf

/-- `RootN pf u r n`: following parent pointers from `u` reaches the root
`r` (a self-parent node) in exactly `n` steps. -/
inductive RootN {T : Type} [DecidableEq T] (pf : List (T × T)) : T → T → Nat → Prop where
  | self {u : T} : lookupA pf u = some u → RootN pf u u 0
  | step {u p r : T} {n : Nat} : lookupA pf u = some p → p ≠ u →
      RootN pf p r n → RootN pf u r (n + 1)

/-- The number of self-parent entries, i.e. of distinct components. -/
def rootCount {T : Type} [DecidableEq T] (pf : List (T × T)) : Nat :=
  pf.countP (fun pr => decide (pr.2 = pr.1))

/-- The forest invariant of `UnionFind`: keys are unique, every inserted node
reaches a root, and `num_cc_` counts the roots. -/
structure UFInv {T : Type} [DecidableEq T] (uf : UnionFind T) : Prop where
  nodup : (uf.parentOf.map Prod.fst).Nodup
  rooted : ∀ u, (lookupA uf.parentOf u).isSome = true →
    ∃ r n, RootN uf.parentOf u r n
  ccCount : uf.numCC = rootCount uf.parentOf

section UnionFindTheory

variable {T : Type} [DecidableEq T]

theorem RootN_isSome {pf : List (T × T)} {u r : T} {n : Nat}
    (h : RootN pf u r n) : (lookupA pf u).isSome = true := by
  cases h with
  | self hu => rw [hu]; rfl
  | step hu _ _ => rw [hu]; rfl

theorem RootN_det {pf : List (T × T)} {u r r' : T} {n n' : Nat}
    (h : RootN pf u r n) (h' : RootN pf u r' n') : r = r' ∧ n = n' := by
  induction h generalizing r' n' with
  | self hu =>
    cases h' with
    | self _ => exact ⟨rfl, rfl⟩
    | step hu' hne _ =>
      rw [hu] at hu'
      have heq := Option.some.inj hu'
      first
      | exact absurd heq hne
      | exact absurd heq.symm hne
  | step hu hne hsub ih =>
    cases h' with
    | self hu' =>
      rw [hu'] at hu
      have heq := Option.some.inj hu
      first
      | exact absurd heq hne
      | exact absurd heq.symm hne
    | step hu' hne' hsub' =>
      rw [hu] at hu'
      have hp := Option.some.inj hu'
      rw [← hp] at hsub'
      obtain ⟨h1, h2⟩ := ih hsub'
      exact ⟨h1, by omega⟩

theorem RootN_root_self {pf : List (T × T)} {u r : T} {n : Nat}
    (h : RootN pf u r n) : lookupA pf r = some r := by
  induction h with
  | self hu => exact hu
  | step _ _ _ ih => exact ih

theorem RootN_chain {pf : List (T × T)} {u r : T} {n : Nat}
    (h : RootN pf u r n) :
    ∃ c : List T, c.length = n + 1 ∧ c.Nodup ∧
      ∀ x ∈ c, (lookupA pf x).isSome = true ∧ ∃ m, m ≤ n ∧ RootN pf x r m := by
  induction h with
  | self hu =>
    rename_i z
    refine ⟨[z], rfl, List.nodup_singleton _, ?_⟩
    intro x hx
    rw [List.mem_singleton] at hx
    subst hx
    exact ⟨by rw [hu]; rfl, 0, le_refl 0, RootN.self hu⟩
  | step hu hne hsub ih =>
    obtain ⟨c, hlen, hnd, hmem⟩ := ih
    rename_i u p r n
    have hun : RootN pf u r (n + 1) := RootN.step hu hne hsub
    refine ⟨u :: c, by rw [List.length_cons, hlen], ?_, ?_⟩
    · rw [List.nodup_cons]
      refine ⟨?_, hnd⟩
      intro huc
      obtain ⟨-, m, hm, hroot⟩ := hmem u huc
      obtain ⟨-, hmn⟩ := RootN_det hroot hun
      omega
    · intro x hx
      rcases List.mem_cons.1 hx with hx | hx
      · subst hx
        exact ⟨by rw [hu]; rfl, n + 1, le_refl _, hun⟩
      · obtain ⟨hs, m, hm, hroot⟩ := hmem x hx
        exact ⟨hs, m, by omega, hroot⟩

theorem RootN_lt_length {pf : List (T × T)}
    (hnd : (pf.map Prod.fst).Nodup) {u r : T} {n : Nat}
    (h : RootN pf u r n) : n < pf.length := by
  obtain ⟨c, hlen, hcnd, hmem⟩ := RootN_chain h
  have hsub : c ⊆ pf.map Prod.fst := by
    intro x hx
    exact (lookupA_isSome_iff pf x).1 (hmem x hx).1
  have hle : c.length ≤ (pf.map Prod.fst).length :=
    List.Subperm.length_le (List.subperm_of_subset hcnd hsub)
  rw [List.length_map] at hle
  omega

theorem fst_setA_present {α β : Type} [DecidableEq α] (l : List (α × β))
    (u : α) (y : β) (h : (lookupA l u).isSome = true) :
    (setA l u y).map Prod.fst = l.map Prod.fst := by
  induction l with
  | nil => simp [lookupA] at h
  | cons p l ih =>
    by_cases hx : u = p.1
    · simp [setA, hx]
    · simp only [lookupA, if_neg hx] at h
      simp [setA, hx, ih h]

theorem countP_setA {α β : Type} [DecidableEq α] (q : α × β → Bool)
    (l : List (α × β)) (u : α) (y : β) {b : β} (hl : lookupA l u = some b) :
    (setA l u y).countP q + (if q (u, b) = true then 1 else 0)
      = l.countP q + (if q (u, y) = true then 1 else 0) := by
  induction l with
  | nil => simp [lookupA] at hl
  | cons p l ih =>
    by_cases h : u = p.1
    · simp only [lookupA, if_pos h] at hl
      have hb : b = p.2 := (Option.some.inj hl).symm
      have hp : (u, b) = p := by
        rw [h, hb]
      simp only [setA, if_pos h, List.countP_cons, hp]
      omega
    · simp only [lookupA, if_neg h] at hl
      have := ih hl
      simp only [setA, if_neg h, List.countP_cons]
      omega

/-- Root assignments survive one compression step `parent_of_[u] := gp`. -/
theorem RootN_setA_grand {pf : List (T × T)} {u p gp : T}
    (hu : lookupA pf u = some p) (hpu : p ≠ u) (hgp : lookupA pf p = some gp) :
    ∀ {x r : T} {n : Nat}, RootN pf x r n →
      ∃ m, m ≤ n ∧ RootN (setA pf u gp) x r m := by
  intro x r n hx
  induction hx with
  | self hxx =>
    rename_i z
    have hzu : z ≠ u := by
      intro hceq
      rw [hceq, hu] at hxx
      exact hpu (Option.some.inj hxx)
    exact ⟨0, le_refl 0,
      RootN.self (by rw [lookupA_setA_ne _ _ hzu, hxx])⟩
  | step hxq hqx hsub ih =>
    rename_i z q r n
    obtain ⟨m', hm', hq1⟩ := ih
    by_cases hzu : z = u
    · have hqp : q = p := by
        rw [hzu, hu] at hxq
        exact (Option.some.inj hxq).symm
      subst hqp
      cases hq1 with
      | self hpp =>
        have h2 : lookupA pf q = some q := by
          rw [lookupA_setA_ne _ _ hpu] at hpp
          exact hpp
        have hgpq : gp = q := by
          rw [hgp] at h2
          exact Option.some.inj h2
        subst hgpq
        refine ⟨1, by omega, ?_⟩
        rw [hzu]
        exact RootN.step (lookupA_setA_self _ _ _) hpu (RootN.self hpp)
      | step hq2 hne2 hsub2 =>
        rename_i q' m''
        have hq'2 : gp = q' := by
          rw [lookupA_setA_ne _ _ hpu, hgp] at hq2
          exact Option.some.inj hq2
        subst hq'2
        by_cases hgpu : gp = u
        · refine ⟨m'', by omega, ?_⟩
          nth_rewrite 2 [hgpu] at hsub2
          rw [hzu]
          exact hsub2
        · refine ⟨m'' + 1, by omega, ?_⟩
          rw [hzu]
          exact RootN.step (lookupA_setA_self _ _ _) hgpu hsub2
    · refine ⟨m' + 1, by omega, ?_⟩
      exact RootN.step (by rw [lookupA_setA_ne _ _ hzu]; exact hxq) hqx hq1

/-- Full correctness of the compressing find: from any node whose root lies
at depth `n < fuel`, `findAux` returns that root, preserves the key set and
the number of self-parent entries, and preserves every node's root without
increasing its depth. -/
theorem findAux_spec :
    ∀ (fuel : Nat) (pf : List (T × T)) (u r : T) (n : Nat),
      (pf.map Prod.fst).Nodup →
      RootN pf u r n → n < fuel →
      ∃ pf', findAux fuel pf u = (pf', r) ∧
        pf'.map Prod.fst = pf.map Prod.fst ∧
        rootCount pf' = rootCount pf ∧
        (∀ (m : Nat) (x r' : T), RootN pf x r' m →
          ∃ m', m' ≤ m ∧ RootN pf' x r' m') := by
  intro fuel
  induction fuel with
  | zero =>
    intro pf u r n hnd hroot hn
    omega
  | succ f ih =>
    intro pf u r n hnd hroot hn
    cases hroot with
    | self hu =>
      refine ⟨pf, ?_, rfl, rfl, fun m x r' hx => ⟨m, le_refl m, hx⟩⟩
      simp [findAux, hu]
    | step hu hpu hsub =>
      rename_i p n'
      have hsubC := hsub
      have hp_some : (lookupA pf p).isSome = true := RootN_isSome hsub
      obtain ⟨gp, hgp⟩ := Option.isSome_iff_exists.1 hp_some
      have hgd : (lookupA pf p).getD p = gp := by rw [hgp]; rfl
      set pf1 := setA pf u gp with hpf1
      have hfst1 : pf1.map Prod.fst = pf.map Prod.fst :=
        fst_setA_present pf u gp (by rw [hu]; rfl)
      have hnd1 : (pf1.map Prod.fst).Nodup := by rw [hfst1]; exact hnd
      have hgrand : ∀ {x r' : T} {m : Nat}, RootN pf x r' m →
          ∃ m2, m2 ≤ m ∧ RootN (setA pf u gp) x r' m2 :=
        fun hx => RootN_setA_grand hu hpu hgp hx
      have hgpu : gp ≠ u := by
        intro hceq
        cases hsub with
        | self hpp =>
          rw [hpp] at hgp
          have hpg := Option.some.inj hgp
          exact hpu (hpg.trans hceq)
        | step hp2 hne2 hsub2 =>
          rename_i q2 n''
          have hq2g : q2 = gp := by
            rw [hp2] at hgp
            exact Option.some.inj hgp
          rw [hq2g, hceq] at hsub2
          obtain ⟨-, hdet⟩ := RootN_det hsub2 (RootN.step hu hpu hsubC)
          omega
      have hgproot : ∃ m, m ≤ n' ∧ RootN pf1 gp r m := by
        cases hsub with
        | self hpp =>
          rw [hpp] at hgp
          have hpg := Option.some.inj hgp
          obtain ⟨m, hm, h1⟩ := hgrand (RootN.self hpp)
          refine ⟨m, by omega, ?_⟩
          rw [← hpg]
          exact h1
        | step hp2 hne2 hsub2 =>
          rename_i q2 n''
          have hq2g : q2 = gp := by
            rw [hp2] at hgp
            exact Option.some.inj hgp
          obtain ⟨m, hm, h1⟩ := hgrand hsub2
          refine ⟨m, by omega, ?_⟩
          rw [← hq2g]
          exact h1
      obtain ⟨mg, hmg, hgp1⟩ := hgproot
      obtain ⟨pf', heq, hfst', hcount', hpres'⟩ :=
        ih pf1 gp r mg hnd1 hgp1 (by omega)
      refine ⟨pf', ?_, ?_, ?_, ?_⟩
      · simp only [findAux, hu]
        rw [if_neg hpu, hgd]
        exact heq
      · rw [hfst', hfst1]
      · rw [hcount']
        show rootCount pf1 = rootCount pf
        have hcnt := countP_setA (fun pr => decide (pr.2 = pr.1)) pf u gp hu
        simp [hpu, hgpu] at hcnt
        unfold rootCount
        exact hcnt
      · intro m x r' hx
        obtain ⟨m1, hm1, h1⟩ := hgrand hx
        obtain ⟨m2, hm2, h2⟩ := hpres' m1 x r' h1
        exact ⟨m2, by omega, h2⟩

/-- `Find` on a well-formed structure returns the unique root of the given
node, preserves the key set, the rank map, the component counter and every
node's root, and keeps the invariant. -/
theorem Find_spec (uf : UnionFind T) (hInv : UFInv uf) {u r : T} {n : Nat}
    (h : RootN uf.parentOf u r n) :
    (uf.Find u).2 = r ∧
    UFInv (uf.Find u).1 ∧
    (uf.Find u).1.parentOf.map Prod.fst = uf.parentOf.map Prod.fst ∧
    (uf.Find u).1.rankOf = uf.rankOf ∧
    (uf.Find u).1.numCC = uf.numCC ∧
    (∀ (m : Nat) (x r' : T), RootN uf.parentOf x r' m →
      ∃ m', m' ≤ m ∧ RootN (uf.Find u).1.parentOf x r' m') := by
  have hn := RootN_lt_length hInv.nodup h
  obtain ⟨pf', heq, hfst, hcount, hpres⟩ :=
    findAux_spec (uf.parentOf.length + 1) uf.parentOf u r n hInv.nodup h
      (by omega)
  have hfind : uf.Find u = ({ uf with parentOf := pf' }, r) := by
    unfold UnionFind.Find
    rw [heq]
  rw [hfind]
  refine ⟨rfl, ⟨?_, ?_, ?_⟩, hfst, rfl, rfl, ?_⟩
  · show (pf'.map Prod.fst).Nodup
    rw [hfst]
    exact hInv.nodup
  · intro x hx
    have hx0 : (lookupA uf.parentOf x).isSome = true := by
      rw [lookupA_isSome_iff] at hx ⊢
      rw [← hfst]
      exact hx
    obtain ⟨r0, n0, h0⟩ := hInv.rooted x hx0
    obtain ⟨m', -, h1⟩ := hpres n0 x r0 h0
    exact ⟨r0, m', h1⟩
  · show uf.numCC = rootCount pf'
    rw [hcount]
    exact hInv.ccCount
  · intro m x r' hx
    exact hpres m x r' hx

/-- `Find` on a node never inserted: the lookup misses and the loop body
is never entered. -/
theorem Find_absent (uf : UnionFind T) (u : T)
    (h : lookupA uf.parentOf u = none) : uf.Find u = (uf, u) := by
  unfold UnionFind.Find
  simp only [findAux, h]

/-- Root assignments after linking root `rv` beneath root `ru`. -/
theorem RootN_setA_link {pf : List (T × T)} {ru rv : T}
    (hru : lookupA pf ru = some ru) (hrv : lookupA pf rv = some rv)
    (hne : ru ≠ rv) :
    ∀ {x r : T} {n : Nat}, RootN pf x r n →
      (r = rv → RootN (setA pf rv ru) x ru (n + 1)) ∧
      (r ≠ rv → RootN (setA pf rv ru) x r n) := by
  intro x r n hx
  induction hx with
  | self hxx =>
    rename_i z
    constructor
    · intro hzv
      rw [hzv]
      exact RootN.step (lookupA_setA_self _ _ _) hne
        (RootN.self (by rw [lookupA_setA_ne _ _ hne]; exact hru))
    · intro hzv
      exact RootN.self (by rw [lookupA_setA_ne _ _ hzv]; exact hxx)
  | step hxq hqx hsub ih =>
    rename_i z q r' n'
    have hzv : z ≠ rv := by
      intro hceq
      rw [hceq, hrv] at hxq
      have hq : rv = q := Option.some.inj hxq
      exact hqx (hq.symm.trans hceq.symm)
    constructor
    · intro hrv'
      exact RootN.step (by rw [lookupA_setA_ne _ _ hzv]; exact hxq) hqx
        (ih.1 hrv')
    · intro hrv'
      exact RootN.step (by rw [lookupA_setA_ne _ _ hzv]; exact hxq) hqx
        (ih.2 hrv')

/-- Unfolding of `Union` when both nodes are present. -/
theorem Union_present_eq (uf : UnionFind T) (u v : T)
    (hu : (lookupA uf.parentOf u).isSome = true)
    (hv : (lookupA uf.parentOf v).isSome = true) :
    uf.Union u v =
      (if (uf.Find u).2 ≠ ((uf.Find u).1.Find v).2 then
        (if (lookupA ((uf.Find u).1.Find v).1.rankOf (uf.Find u).2).getD 0
            ≥ (lookupA ((uf.Find u).1.Find v).1.rankOf
                ((uf.Find u).1.Find v).2).getD 0 then
          { ((uf.Find u).1.Find v).1 with
            parentOf := setA ((uf.Find u).1.Find v).1.parentOf
              ((uf.Find u).1.Find v).2 (uf.Find u).2,
            rankOf := setA ((uf.Find u).1.Find v).1.rankOf (uf.Find u).2
              ((lookupA ((uf.Find u).1.Find v).1.rankOf (uf.Find u).2).getD 0
                + (lookupA ((uf.Find u).1.Find v).1.rankOf
                    ((uf.Find u).1.Find v).2).getD 0),
            maxRank := max ((uf.Find u).1.Find v).1.maxRank
              ((lookupA ((uf.Find u).1.Find v).1.rankOf (uf.Find u).2).getD 0
                + (lookupA ((uf.Find u).1.Find v).1.rankOf
                    ((uf.Find u).1.Find v).2).getD 0),
            numCC := ((uf.Find u).1.Find v).1.numCC - 1 }
        else
          { ((uf.Find u).1.Find v).1 with
            parentOf := setA ((uf.Find u).1.Find v).1.parentOf
              (uf.Find u).2 ((uf.Find u).1.Find v).2,
            rankOf := setA ((uf.Find u).1.Find v).1.rankOf
              ((uf.Find u).1.Find v).2
              ((lookupA ((uf.Find u).1.Find v).1.rankOf
                  ((uf.Find u).1.Find v).2).getD 0
                + (lookupA ((uf.Find u).1.Find v).1.rankOf
                    (uf.Find u).2).getD 0),
            maxRank := max ((uf.Find u).1.Find v).1.maxRank
              ((lookupA ((uf.Find u).1.Find v).1.rankOf
                  ((uf.Find u).1.Find v).2).getD 0
                + (lookupA ((uf.Find u).1.Find v).1.rankOf
                    (uf.Find u).2).getD 0),
            numCC := ((uf.Find u).1.Find v).1.numCC - 1 })
      else ((uf.Find u).1.Find v).1) := by
  unfold UnionFind.Union
  rw [hu, hv]
  rfl

/-- `Find`'s returned representative, from any root derivation. -/
theorem Find_snd (uf : UnionFind T)
    (hnd : (uf.parentOf.map Prod.fst).Nodup) {u r : T} {n : Nat}
    (h : RootN uf.parentOf u r n) : (uf.Find u).2 = r := by
  have hn := RootN_lt_length hnd h
  obtain ⟨pf', heq, -, -, -⟩ :=
    findAux_spec (uf.parentOf.length + 1) uf.parentOf u r n hnd h (by omega)
  unfold UnionFind.Find
  rw [heq]

/-- Linking root `rb` beneath root `ra` keeps the forest invariant,
whatever the rank bookkeeping does. -/
theorem UFInv_link (uf2 : UnionFind T) (hInv2 : UFInv uf2) {ra rb : T}
    (hra : lookupA uf2.parentOf ra = some ra)
    (hrb : lookupA uf2.parentOf rb = some rb)
    (hne : ra ≠ rb) (uf' : UnionFind T)
    (hP : uf'.parentOf = setA uf2.parentOf rb ra)
    (hC : uf'.numCC = uf2.numCC - 1) :
    UFInv uf' := by
  have hfst : (setA uf2.parentOf rb ra).map Prod.fst
      = uf2.parentOf.map Prod.fst :=
    fst_setA_present _ _ _ (by rw [hrb]; rfl)
  have hlink : ∀ {x r : T} {n : Nat}, RootN uf2.parentOf x r n →
      (r = rb → RootN (setA uf2.parentOf rb ra) x ra (n + 1)) ∧
      (r ≠ rb → RootN (setA uf2.parentOf rb ra) x r n) :=
    fun hx => RootN_setA_link hra hrb hne hx
  have hmem : (rb, rb) ∈ uf2.parentOf := lookupA_mem hrb
  have hpos : 0 < rootCount uf2.parentOf := by
    unfold rootCount
    exact List.countP_pos.2 ⟨(rb, rb), hmem, by simp⟩
  have hcnt := countP_setA (fun pr => decide (pr.2 = pr.1))
    uf2.parentOf rb ra hrb
  simp only [decide_eq_true_eq] at hcnt
  rw [if_pos trivial, if_neg hne] at hcnt
  have hcc := hInv2.ccCount
  unfold rootCount at hcc hpos
  refine ⟨?_, ?_, ?_⟩
  · rw [hP, hfst]
    exact hInv2.nodup
  · intro x hx
    rw [hP] at hx ⊢
    have hx2 : (lookupA uf2.parentOf x).isSome = true := by
      rw [lookupA_isSome_iff] at hx ⊢
      rw [← hfst]
      exact hx
    obtain ⟨r0, m0, h0⟩ := hInv2.rooted x hx2
    by_cases hr0 : r0 = rb
    · exact ⟨ra, m0 + 1, (hlink h0).1 hr0⟩
    · exact ⟨r0, m0, (hlink h0).2 hr0⟩
  · rw [hP, hC]
    unfold rootCount
    omega

/-- Linking consumes exactly one component. -/
theorem numCC_link_dec (uf2 : UnionFind T) (hInv2 : UFInv uf2) {rb : T}
    (hrb : lookupA uf2.parentOf rb = some rb) (uf' : UnionFind T)
    (hC : uf'.numCC = uf2.numCC - 1) : uf'.numCC + 1 = uf2.numCC := by
  have hmem : (rb, rb) ∈ uf2.parentOf := lookupA_mem hrb
  have hpos : 0 < rootCount uf2.parentOf := by
    unfold rootCount
    exact List.countP_pos.2 ⟨(rb, rb), hmem, by simp⟩
  have hcc := hInv2.ccCount
  omega

/-- After linking, the representatives of any two nodes whose old roots were
among the two linked roots coincide. -/
theorem link_find_eq (uf2 : UnionFind T) (hInv2 : UFInv uf2) {ra rb : T}
    (hra : lookupA uf2.parentOf ra = some ra)
    (hrb : lookupA uf2.parentOf rb = some rb)
    (hne : ra ≠ rb) (uf' : UnionFind T)
    (hP : uf'.parentOf = setA uf2.parentOf rb ra)
    {x y rx ry : T} {mx my : Nat}
    (hx : RootN uf2.parentOf x rx mx) (hy : RootN uf2.parentOf y ry my)
    (hxr : rx = ra ∨ rx = rb) (hyr : ry = ra ∨ ry = rb) :
    (uf'.Find x).2 = (uf'.Find y).2 := by
  have hfst : (setA uf2.parentOf rb ra).map Prod.fst
      = uf2.parentOf.map Prod.fst :=
    fst_setA_present _ _ _ (by rw [hrb]; rfl)
  have hnd' : (uf'.parentOf.map Prod.fst).Nodup := by
    rw [hP, hfst]
    exact hInv2.nodup
  have hlink : ∀ {x r : T} {n : Nat}, RootN uf2.parentOf x r n →
      (r = rb → RootN (setA uf2.parentOf rb ra) x ra (n + 1)) ∧
      (r ≠ rb → RootN (setA uf2.parentOf rb ra) x r n) :=
    fun hx => RootN_setA_link hra hrb hne hx
  have hxa : ∃ m, RootN uf'.parentOf x ra m := by
    rcases hxr with hxr | hxr
    · refine ⟨mx, ?_⟩
      rw [hP]
      have := (hlink hx).2 (by rw [hxr]; exact hne)
      rw [hxr] at this
      exact this
    · refine ⟨mx + 1, ?_⟩
      rw [hP]
      exact (hlink hx).1 hxr
  have hya : ∃ m, RootN uf'.parentOf y ra m := by
    rcases hyr with hyr | hyr
    · refine ⟨my, ?_⟩
      rw [hP]
      have := (hlink hy).2 (by rw [hyr]; exact hne)
      rw [hyr] at this
      exact this
    · refine ⟨my + 1, ?_⟩
      rw [hP]
      exact (hlink hy).1 hyr
  obtain ⟨m1, h1⟩ := hxa
  obtain ⟨m2, h2⟩ := hya
  rw [Find_snd uf' hnd' h1, Find_snd uf' hnd' h2]

/-- Complete analysis of `Union` on two inserted nodes: the invariant is
preserved; distinct representatives merge (`Find` results coincide
afterwards) and the component counter drops by exactly one; equal
representatives leave every `Find` result and the counter unchanged. -/
theorem Union_spec (uf : UnionFind T) (hInv : UFInv uf) (u v : T)
    (hu : (lookupA uf.parentOf u).isSome = true)
    (hv : (lookupA uf.parentOf v).isSome = true) :
    UFInv (uf.Union u v) ∧
    ((uf.Find u).2 ≠ (uf.Find v).2 →
      (uf.Union u v).numCC + 1 = uf.numCC ∧
      ((uf.Union u v).Find u).2 = ((uf.Union u v).Find v).2) ∧
    ((uf.Find u).2 = (uf.Find v).2 →
      (uf.Union u v).numCC = uf.numCC ∧
      ∀ x, ((uf.Union u v).Find x).2 = (uf.Find x).2) := by
  obtain ⟨ru, nu, hru⟩ := hInv.rooted u hu
  obtain ⟨rv, nv0, hrv⟩ := hInv.rooted v hv
  obtain ⟨hFu2, hInv1, hfst1, hrank1, hcc1, hpres1⟩ := Find_spec uf hInv hru
  obtain ⟨mv1, -, hrv1⟩ := hpres1 nv0 v rv hrv
  obtain ⟨hFv2, hInv2, hfst2, hrank2, hcc2, hpres2⟩ :=
    Find_spec (uf.Find u).1 hInv1 hrv1
  obtain ⟨hFv2orig, -, -, -, -, -⟩ := Find_spec uf hInv hrv
  obtain ⟨mu1, -, hru1⟩ := hpres1 nu u ru hru
  obtain ⟨mu2, -, hru2⟩ := hpres2 mu1 u ru hru1
  obtain ⟨mv2, -, hrv2⟩ := hpres2 mv1 v rv hrv1
  have hfst20 : ((uf.Find u).1.Find v).1.parentOf.map Prod.fst
      = uf.parentOf.map Prod.fst := by
    rw [hfst2, hfst1]
  have hcc20 : ((uf.Find u).1.Find v).1.numCC = uf.numCC := by
    rw [hcc2, hcc1]
  rw [Union_present_eq uf u v hu hv, hFu2, hFv2, hFv2orig]
  by_cases hne : ru = rv
  · rw [if_neg (fun hcon => hcon hne)]
    refine ⟨hInv2, fun hcon => absurd hne hcon, fun _ => ⟨hcc20, ?_⟩⟩
    intro x
    cases hlx : lookupA uf.parentOf x with
    | none =>
      have hlx2 : lookupA ((uf.Find u).1.Find v).1.parentOf x = none := by
        cases h2 : lookupA ((uf.Find u).1.Find v).1.parentOf x with
        | none => rfl
        | some y =>
          have hs : (lookupA uf.parentOf x).isSome = true := by
            rw [lookupA_isSome_iff, ← hfst20, ← lookupA_isSome_iff, h2]
            rfl
          rw [hlx] at hs
          exact Bool.noConfusion hs
      rw [Find_absent _ x hlx2, Find_absent uf x hlx]
    | some y =>
      have hx : (lookupA uf.parentOf x).isSome = true := by rw [hlx]; rfl
      obtain ⟨rx, nx, hrx⟩ := hInv.rooted x hx
      obtain ⟨hfx, -, -, -, -, -⟩ := Find_spec uf hInv hrx
      obtain ⟨mx1, -, hrx1⟩ := hpres1 nx x rx hrx
      obtain ⟨mx2, -, hrx2⟩ := hpres2 mx1 x rx hrx1
      obtain ⟨hfx2, -, -, -, -, -⟩ :=
        Find_spec ((uf.Find u).1.Find v).1 hInv2 hrx2
      rw [hfx, hfx2]
  · rw [if_pos hne]
    have hruroot : lookupA ((uf.Find u).1.Find v).1.parentOf ru = some ru :=
      RootN_root_self hru2
    have hrvroot : lookupA ((uf.Find u).1.Find v).1.parentOf rv = some rv :=
      RootN_root_self hrv2
    split
    · refine ⟨UFInv_link _ hInv2 hruroot hrvroot hne _ rfl rfl,
        fun _ => ⟨?_, ?_⟩, fun heq => absurd heq hne⟩
      · rw [← hcc20]
        exact numCC_link_dec _ hInv2 hrvroot _ rfl
      · exact link_find_eq _ hInv2 hruroot hrvroot hne _ rfl hru2 hrv2
          (Or.inl rfl) (Or.inr rfl)
    · refine ⟨UFInv_link _ hInv2 hrvroot hruroot
          (fun hcon => hne hcon.symm) _ rfl rfl,
        fun _ => ⟨?_, ?_⟩, fun heq => absurd heq hne⟩
      · rw [← hcc20]
        exact numCC_link_dec _ hInv2 hruroot _ rfl
      · exact link_find_eq _ hInv2 hrvroot hruroot
          (fun hcon => hne hcon.symm) _ rfl hru2 hrv2
          (Or.inr rfl) (Or.inl rfl)

end UnionFindTheory

/-- C10: for the bundled UnionFind — `InsertNode` on a fresh node increases
`GetNumComponents` by one and is a complete no-op on an existing node;
`Union` on two previously inserted nodes whose representatives differ makes
`Find(u)` equal `Find(v)` and decreases `GetNumComponents` by exactly one;
`Union` with a never-inserted operand is a complete no-op, and `Union` on
two nodes already sharing a representative changes neither any `Find`
result nor `GetNumComponents`. -/
theorem claim_C10_union_find {T : Type} [DecidableEq T] (uf : UnionFind T)
    (hInv : UFInv uf) (u v w : T) :
    ((lookupA uf.parentOf w).isSome = false →
      (uf.InsertNode w).GetNumComponents = uf.GetNumComponents + 1) ∧
    ((lookupA uf.parentOf w).isSome = true → uf.InsertNode w = uf) ∧
    (¬((lookupA uf.parentOf u).isSome = true ∧
        (lookupA uf.parentOf v).isSome = true) → uf.Union u v = uf) ∧
    ((lookupA uf.parentOf u).isSome = true →
      (lookupA uf.parentOf v).isSome = true →
      (uf.Find u).2 ≠ (uf.Find v).2 →
      ((uf.Union u v).Find u).2 = ((uf.Union u v).Find v).2 ∧
      (uf.Union u v).GetNumComponents + 1 = uf.GetNumComponents) ∧
    ((lookupA uf.parentOf u).isSome = true →
      (lookupA uf.parentOf v).isSome = true →
      (uf.Find u).2 = (uf.Find v).2 →
      (uf.Union u v).GetNumComponents = uf.GetNumComponents ∧
      ∀ x, ((uf.Union u v).Find x).2 = (uf.Find x).2) := by
  refine ⟨?_, ?_, ?_, ?_, ?_⟩
  · intro hw
    unfold UnionFind.InsertNode UnionFind.GetNumComponents
    rw [hw]
    rfl
  · intro hw
    unfold UnionFind.InsertNode
    rw [hw]
    rfl
  · intro h
    have hb : ((lookupA uf.parentOf u).isSome
        && (lookupA uf.parentOf v).isSome) = false := by
      cases h1 : (lookupA uf.parentOf u).isSome <;>
        cases h2 : (lookupA uf.parentOf v).isSome <;> simp_all
    unfold UnionFind.Union
    rw [hb]
    rfl
  · intro hu hv hne
    obtain ⟨-, hD, -⟩ := Union_spec uf hInv u v hu hv
    obtain ⟨h1, h2⟩ := hD hne
    exact ⟨h2, h1⟩
  · intro hu hv heq
    obtain ⟨-, -, hE⟩ := Union_spec uf hInv u v hu hv
    exact hE heq

/-- A concrete two-node forest used by the C10 witness. -/
def ufWitness : UnionFind Int := ((emptyUF Int).InsertNode 1).InsertNode 2

theorem ufWitness_inv : UFInv ufWitness := by
  have hpf : ufWitness.parentOf = [((1 : Int), (1 : Int)), (2, 2)] := by rfl
  refine ⟨?_, ?_, ?_⟩
  · rw [hpf]
    decide
  · intro x hx
    rw [hpf] at hx ⊢
    by_cases h1 : x = 1
    · subst h1
      exact ⟨1, 0, RootN.self (by rfl)⟩
    · by_cases h2 : x = 2
      · subst h2
        exact ⟨2, 0, RootN.self (by rfl)⟩
      · rw [show lookupA [((1 : Int), (1 : Int)), (2, 2)] x = none by
          simp [lookupA, h1, h2]] at hx
        exact Bool.noConfusion hx
  · rfl

/-- Witness for C10 at a concrete input: the two-node forest with nodes
1 and 2, probing Union(1, 2) and InsertNode(3). -/
theorem claim_C10_witness :
    ((lookupA ufWitness.parentOf 3).isSome = false →
      (ufWitness.InsertNode 3).GetNumComponents
        = ufWitness.GetNumComponents + 1) ∧
    ((lookupA ufWitness.parentOf 3).isSome = true →
      ufWitness.InsertNode 3 = ufWitness) ∧
    (¬((lookupA ufWitness.parentOf 1).isSome = true ∧
        (lookupA ufWitness.parentOf 2).isSome = true) →
      ufWitness.Union 1 2 = ufWitness) ∧
    ((lookupA ufWitness.parentOf 1).isSome = true →
      (lookupA ufWitness.parentOf 2).isSome = true →
      (ufWitness.Find 1).2 ≠ (ufWitness.Find 2).2 →
      ((ufWitness.Union 1 2).Find 1).2 = ((ufWitness.Union 1 2).Find 2).2 ∧
      (ufWitness.Union 1 2).GetNumComponents + 1
        = ufWitness.GetNumComponents) ∧
    ((lookupA ufWitness.parentOf 1).isSome = true →
      (lookupA ufWitness.parentOf 2).isSome = true →
      (ufWitness.Find 1).2 = (ufWitness.Find 2).2 →
      (ufWitness.Union 1 2).GetNumComponents = ufWitness.GetNumComponents ∧
      ∀ x, ((ufWitness.Union 1 2).Find x).2 = (ufWitness.Find x).2) :=
  claim_C10_union_find ufWitness ufWitness_inv 1 2 3

end Wilderfield
